import Mathlib

/-!
Shallow embedding of the extended-information pipeline of `pyonfx/ass_core.py`
(`Ass.__init__`), together with theorems checking the specification's claims.

Conventions:
* line text is `List Char` (named `Text` below);
* Python regex scanning is hand-compiled into recursive scanners with the
  semantics of the concrete patterns used by the source
  (`(\{.*?\})`, `(\s*)([^\s]+)(\s*)`, `\\[kK][of]?(\d+)(\\-[^\\}]*)?`,
  `\\\-([^\s\\}]+)`, `^\[([^\]]*)`);
* pixel coordinates, durations and lead times are ℚ — every arithmetic
  operation the pipeline performs on them (integer sums/differences and
  halving) is exact in Python float arithmetic at these magnitudes;
* `None`-able fields are `Option`; the Python `TypeError` raised by comparing
  `None > 0` is modelled by `Except Unit`.
-/

namespace PyonFX

abbrev Text := List Char

/-- Python `\s` on the whitespace characters occurring in ASS dialogue text. -/
def isSpace (c : Char) : Bool := c.isWhitespace

/-- Python `\d` (decimal digits). -/
def isDigit (c : Char) : Bool := c.isDigit

/-- Longest prefix whose characters satisfy `p`, and the remainder:
the effect of a greedy `x*` regex atom. -/
def spanP (p : Char → Bool) : Text → Text × Text
  | [] => ([], [])
  | c :: cs =>
    if p c then
      let r := spanP p cs
      (c :: r.1, r.2)
    else ([], c :: cs)

theorem spanP_append (p : Char → Bool) (cs : Text) :
    (spanP p cs).1 ++ (spanP p cs).2 = cs := by
  induction cs with
  | nil => rfl
  | cons c cs ih =>
    by_cases h : p c <;> simp [spanP, h, ih]

theorem spanP_snd_length_le (p : Char → Bool) (cs : Text) :
    (spanP p cs).2.length ≤ cs.length := by
  induction cs with
  | nil => simp [spanP]
  | cons c cs ih =>
    by_cases h : p c <;> simp [spanP, h]
    · exact Nat.le_succ_of_le ih

theorem spanP_fst_all (p : Char → Bool) (cs : Text) :
    ∀ c ∈ (spanP p cs).1, p c := by
  induction cs with
  | nil => simp [spanP]
  | cons c cs ih =>
    by_cases h : p c
    · intro x hx
      rw [spanP] at hx
      simp only [h, if_true, List.mem_cons] at hx
      rcases hx with hx | hx
      · subst hx; exact h
      · exact ih x hx
    · simp [spanP, h]

theorem spanP_snd_cases (p : Char → Bool) (cs : Text) :
    (spanP p cs).2 = [] ∨ ∃ c cs', (spanP p cs).2 = c :: cs' ∧ p c = false := by
  induction cs with
  | nil => simp [spanP]
  | cons c cs ih =>
    by_cases h : p c
    · simpa [spanP, h] using ih
    · exact Or.inr ⟨c, cs, by simp [spanP, h], by simp [h]⟩

/-- Locate the leftmost match of the non-greedy group pattern `\{.*?\}`:
returns `(before, groupContent, after)`, the match being
`'{' :: groupContent ++ ['}']`. -/
def findGroup (cs : Text) : Option (Text × Text × Text) :=
  let s := spanP (fun c => !(c = '{' : Bool)) cs
  match s.2 with
  | [] => none
  | _ :: b =>
    let t := spanP (fun c => !(c = '}' : Bool)) b
    match t.2 with
    | [] => none
    | _ :: d => some (s.1, t.1, d)

theorem findGroup_decomp {cs a inner rest : Text}
    (h : findGroup cs = some (a, inner, rest)) :
    cs = a ++ '{' :: inner ++ '}' :: rest ∧
      (∀ c ∈ a, c ≠ '{') ∧ (∀ c ∈ inner, c ≠ '}') := by
  obtain ⟨s1, s2, hs⟩ : ∃ s1 s2, spanP (fun c => !(c = '{' : Bool)) cs = (s1, s2) :=
    ⟨_, _, rfl⟩
  have e1 := spanP_append (fun c => !(c = '{' : Bool)) cs
  have a1 := spanP_fst_all (fun c => !(c = '{' : Bool)) cs
  have c1 := spanP_snd_cases (fun c => !(c = '{' : Bool)) cs
  rw [hs] at e1 a1 c1
  unfold findGroup at h
  rw [hs] at h
  rcases s2 with _ | ⟨x, b⟩
  · simp at h
  · obtain ⟨t1, t2, ht⟩ : ∃ t1 t2, spanP (fun c => !(c = '}' : Bool)) b = (t1, t2) :=
      ⟨_, _, rfl⟩
    have e2 := spanP_append (fun c => !(c = '}' : Bool)) b
    have a2 := spanP_fst_all (fun c => !(c = '}' : Bool)) b
    have c2 := spanP_snd_cases (fun c => !(c = '}' : Bool)) b
    rw [ht] at e2 a2 c2
    simp only [ht] at h
    rcases t2 with _ | ⟨y, d⟩
    · simp at h
    · simp only [Option.some.injEq, Prod.mk.injEq] at h
      obtain ⟨ha, hinner, hrest⟩ := h
      subst ha hinner hrest
      have hx : x = '{' := by
        rcases c1 with c1 | ⟨c, cs', hc', hc⟩
        · cases c1
        · cases hc'
          simpa using hc
      have hy : y = '}' := by
        rcases c2 with c2 | ⟨c, cs', hc', hc⟩
        · cases c2
        · cases hc'
          simpa using hc
      subst hx hy
      simp only at e1 a1 e2 a2
      refine ⟨?_, ?_, ?_⟩
      · rw [← e2] at e1
        simpa using e1.symm
      · intro c hc
        simpa using a1 c hc
      · intro c hc
        simpa using a2 c hc

theorem findGroup_rest_lt {cs a inner rest : Text}
    (h : findGroup cs = some (a, inner, rest)) : rest.length < cs.length := by
  have := (findGroup_decomp h).1
  subst this
  simp
  omega

theorem findGroup_none {cs : Text} (h : findGroup cs = none) :
    (∀ c ∈ cs, c ≠ '{') ∨
      ∃ a b, cs = a ++ '{' :: b ∧ (∀ c ∈ a, c ≠ '{') ∧ (∀ c ∈ b, c ≠ '}') := by
  obtain ⟨s1, s2, hs⟩ : ∃ s1 s2, spanP (fun c => !(c = '{' : Bool)) cs = (s1, s2) :=
    ⟨_, _, rfl⟩
  have e1 := spanP_append (fun c => !(c = '{' : Bool)) cs
  have a1 := spanP_fst_all (fun c => !(c = '{' : Bool)) cs
  have c1 := spanP_snd_cases (fun c => !(c = '{' : Bool)) cs
  rw [hs] at e1 a1 c1
  unfold findGroup at h
  rw [hs] at h
  rcases s2 with _ | ⟨x, b⟩
  · left
    intro c hc
    rw [List.append_nil] at e1
    simpa using a1 c (e1 ▸ hc)
  · obtain ⟨t1, t2, ht⟩ : ∃ t1 t2, spanP (fun c => !(c = '}' : Bool)) b = (t1, t2) :=
      ⟨_, _, rfl⟩
    have e2 := spanP_append (fun c => !(c = '}' : Bool)) b
    have a2 := spanP_fst_all (fun c => !(c = '}' : Bool)) b
    rw [ht] at e2 a2
    simp only [ht] at h
    rcases t2 with _ | ⟨y, d⟩
    · right
      have hx : x = '{' := by
        rcases c1 with c1 | ⟨c, cs', hc', hc⟩
        · cases c1
        · cases hc'
          simpa using hc
      subst hx
      refine ⟨s1, b, by rw [← e1], ?_, ?_⟩
      · intro c hc
        simpa using a1 c hc
      · intro c hc
        rw [List.append_nil] at e2
        simpa using a2 c (e2 ▸ hc)
    · simp at h

/-- Structural worker for `splitTagsParts`; the fuel bounds the number of
matches and is never exhausted when it starts at the input length. -/
def splitTagsPartsF : Nat → Text → List Text
  | 0, cs => [cs]
  | fuel + 1, cs =>
    match findGroup cs with
    | none => [cs]
    | some (a, inner, rest) =>
      a :: ('{' :: inner ++ ['}']) :: splitTagsPartsF fuel rest

/-- `re.split` with the capture-group pattern `(\{.*?\})` applied to the raw
line text (ass_core.py:772-779): the list of parts, alternating unmatched
runs and matched `{...}` groups (braces kept), empty parts included. -/
def splitTagsParts (cs : Text) : List Text := splitTagsPartsF cs.length cs

theorem findGroup_nil : findGroup [] = none := rfl

theorem splitTagsPartsF_congr :
    ∀ (f1 : Nat) (f2 : Nat) (cs : Text), cs.length ≤ f1 → cs.length ≤ f2 →
      splitTagsPartsF f1 cs = splitTagsPartsF f2 cs := by
  intro f1
  induction f1 with
  | zero =>
    intro f2 cs h1 h2
    have : cs = [] := List.length_eq_zero.mp (Nat.le_zero.mp h1)
    subst this
    cases f2 <;> simp [splitTagsPartsF, findGroup_nil]
  | succ f1 ih =>
    intro f2 cs h1 h2
    cases f2 with
    | zero =>
      have : cs = [] := List.length_eq_zero.mp (Nat.le_zero.mp h2)
      subst this
      simp [splitTagsPartsF, findGroup_nil]
    | succ f2 =>
      rcases hg : findGroup cs with - | ⟨a, inner, rest⟩
      · rw [splitTagsPartsF, splitTagsPartsF, hg]
      · have hlt := findGroup_rest_lt hg
        rw [splitTagsPartsF, splitTagsPartsF]
        simp only [hg]
        rw [ih f2 rest (by omega) (by omega)]

/-- The recursion equation of `splitTagsParts`. -/
theorem splitTagsParts_eq (cs : Text) :
    splitTagsParts cs =
      match findGroup cs with
      | none => [cs]
      | some (a, inner, rest) =>
        a :: ('{' :: inner ++ ['}']) :: splitTagsParts rest := by
  unfold splitTagsParts
  rcases hn : cs.length with - | n
  · have : cs = [] := List.length_eq_zero.mp hn
    subst this
    simp [splitTagsPartsF, findGroup_nil]
  · rcases hg : findGroup cs with - | ⟨a, inner, rest⟩
    · rw [splitTagsPartsF, hg]
    · have hlt := findGroup_rest_lt hg
      rw [splitTagsPartsF]
      simp only [hg]
      rw [splitTagsPartsF_congr n rest.length rest (by omega) le_rfl]

/-- Structural worker for `stripTags`. -/
def stripTagsF : Nat → Text → Text
  | 0, cs => cs
  | fuel + 1, cs =>
    match findGroup cs with
    | none => cs
    | some (a, _, rest) => a ++ stripTagsF fuel rest

/-- `re.sub(r"\{.*?\}", "", raw_text)` (ass_core.py:597): the tag-stripped
line text. -/
def stripTags (cs : Text) : Text := stripTagsF cs.length cs

theorem stripTagsF_congr :
    ∀ (f1 : Nat) (f2 : Nat) (cs : Text), cs.length ≤ f1 → cs.length ≤ f2 →
      stripTagsF f1 cs = stripTagsF f2 cs := by
  intro f1
  induction f1 with
  | zero =>
    intro f2 cs h1 h2
    have : cs = [] := List.length_eq_zero.mp (Nat.le_zero.mp h1)
    subst this
    cases f2 <;> simp [stripTagsF, findGroup_nil]
  | succ f1 ih =>
    intro f2 cs h1 h2
    cases f2 with
    | zero =>
      have : cs = [] := List.length_eq_zero.mp (Nat.le_zero.mp h2)
      subst this
      simp [stripTagsF, findGroup_nil]
    | succ f2 =>
      rcases hg : findGroup cs with - | ⟨a, inner, rest⟩
      · rw [stripTagsF, stripTagsF, hg]
      · have hlt := findGroup_rest_lt hg
        rw [stripTagsF, stripTagsF]
        simp only [hg]
        rw [ih f2 rest (by omega) (by omega)]

/-- The recursion equation of `stripTags`. -/
theorem stripTags_eq (cs : Text) :
    stripTags cs =
      match findGroup cs with
      | none => cs
      | some (a, _, rest) => a ++ stripTags rest := by
  unfold stripTags
  rcases hn : cs.length with - | n
  · have : cs = [] := List.length_eq_zero.mp hn
    subst this
    simp [stripTagsF, findGroup_nil]
  · rcases hg : findGroup cs with - | ⟨a, inner, rest⟩
    · rw [stripTagsF, hg]
    · have hlt := findGroup_rest_lt hg
      rw [stripTagsF]
      simp only [hg]
      rw [stripTagsF_congr n rest.length rest (by omega) le_rfl]

/-- A tokenizer output segment: a tag group's content (braces removed) or a
plain-text run. -/
inductive Token where
  | tags (s : Text)
  | text (s : Text)
deriving DecidableEq

/-- Classification applied to each nonempty part (ass_core.py:774-778):
parts that start with `{` and end with `}` are tag segments (braces dropped),
all others are text segments. -/
def classify (part : Text) : Token :=
  if part.head? = some '{' ∧ part.getLast? = some '}' then
    Token.tags ((part.drop 1).dropLast)
  else
    Token.text part

/-- The token list built from the raw text (ass_core.py:772-781): split,
drop empty parts, classify. -/
def tokenize (cs : Text) : List Token :=
  ((splitTagsParts cs).filter (fun p => !p.isEmpty)).map classify

/-- Re-wrapping a token into raw text: tag segments get their braces back. -/
def rejoinToken : Token → Text
  | Token.tags s => '{' :: s ++ ['}']
  | Token.text s => s

/-- Concatenating the re-wrapped tokens, the round-trip direction. -/
def rejoin (ts : List Token) : Text :=
  (ts.map rejoinToken).flatten

theorem rejoinToken_classify (part : Text) :
    rejoinToken (classify part) = part := by
  unfold classify
  split
  · next h =>
    obtain ⟨h1, h2⟩ := h
    rcases part with _ | ⟨c, mid⟩
    · cases h1
    · have hc : c = '{' := by simpa using h1
      subst hc
      rcases mid.eq_nil_or_concat with hm | ⟨ys, y, hm⟩
      · subst hm
        simp at h2
      · subst hm
        have hy : y = '}' := by
          have hl : ('{' :: ys.concat y).getLast? = some y := by
            rw [List.concat_eq_append, ← List.cons_append]
            exact List.getLast?_concat _
          rw [hl] at h2
          exact Option.some.inj h2
        subst hy
        simp [rejoinToken, List.concat_eq_append]
  · rfl

theorem rejoin_flatten_parts (parts : List Text) :
    rejoin ((parts.filter (fun p => !p.isEmpty)).map classify) = parts.flatten := by
  induction parts with
  | nil => rfl
  | cons p ps ih =>
    by_cases hp : p.isEmpty
    · have : p = [] := by simpa [List.isEmpty_iff] using hp
      subst this
      simpa using ih
    · simp only [List.filter_cons, hp, Bool.not_false, List.map_cons, rejoin,
        List.flatten_cons, ← ih]
      simp [rejoin, rejoinToken_classify]

theorem splitTagsParts_flatten_bounded :
    ∀ (n : Nat) (cs : Text), cs.length ≤ n → (splitTagsParts cs).flatten = cs := by
  intro n
  induction n with
  | zero =>
    intro cs hle
    rw [splitTagsParts_eq]
    split
    · simp
    · next a inner rest h =>
      have hlt := findGroup_rest_lt h
      omega
  | succ n ih =>
    intro cs hle
    rw [splitTagsParts_eq]
    split
    · simp
    · next a inner rest h =>
      have hd := (findGroup_decomp h).1
      have hlt := findGroup_rest_lt h
      rw [List.flatten_cons, List.flatten_cons, ih rest (by omega)]
      simp [hd]

theorem splitTagsParts_flatten (cs : Text) :
    (splitTagsParts cs).flatten = cs :=
  splitTagsParts_flatten_bounded cs.length cs le_rfl

/-- Round-trip of the tokenizer on arbitrary raw text: concatenating the
segments in order, re-wrapping tag segments in braces, reproduces the input. -/
theorem rejoin_tokenize (cs : Text) : rejoin (tokenize cs) = cs := by
  unfold tokenize
  rw [rejoin_flatten_parts, splitTagsParts_flatten]

/-- The `[of]?(\d+)` middle of the karaoke-tag pattern, with the regex's
greedy-but-backtracking semantics: returns consumed characters, the digit
group, and the rest. -/
def kDigitsPart : Text → Option (Text × Text × Text)
  | [] => none
  | d :: rest2 =>
    if (d = 'o' ∨ d = 'f') ∧ rest2.head?.elim false isDigit then
      let r := spanP isDigit rest2
      some (d :: r.1, r.1, r.2)
    else if isDigit d then
      let r := spanP isDigit (d :: rest2)
      some (r.1, r.1, r.2)
    else none

theorem kDigitsPart_rest_lt {cs mid ds rest : Text}
    (h : kDigitsPart cs = some (mid, ds, rest)) : rest.length < cs.length := by
  match cs with
  | [] => cases h
  | d :: rest2 =>
    rw [kDigitsPart] at h
    split at h
    · next hif =>
      have hle := spanP_snd_length_le isDigit rest2
      simp only [Option.some.injEq, Prod.mk.injEq] at h
      obtain ⟨-, -, hr⟩ := h
      subst hr
      simp only [List.length_cons]
      omega
    · split at h
      · next hd =>
        have hr2 : (spanP isDigit (d :: rest2)).2 = (spanP isDigit rest2).2 := by
          simp [spanP, hd]
        have hle := spanP_snd_length_le isDigit rest2
        simp only [Option.some.injEq, Prod.mk.injEq] at h
        obtain ⟨-, -, hr⟩ := h
        subst hr
        rw [hr2]
        simp only [List.length_cons]
        omega
      · cases h

/-- The optional trailing `(\\-[^\\}]*)?` group of the karaoke-tag pattern:
consumed characters and the rest (empty consumption when absent). -/
def optFxPart : Text → Text × Text
  | '\\' :: '-' :: r2 =>
    let t := spanP (fun ch => !(ch = '\\' ∨ ch = '}' : Bool)) r2
    ('\\' :: '-' :: t.1, t.2)
  | r => ([], r)

theorem optFxPart_snd_le (r : Text) : (optFxPart r).2.length ≤ r.length := by
  unfold optFxPart
  split
  · next r2 =>
    have := spanP_snd_length_le (fun ch => !(ch = '\\' ∨ ch = '}' : Bool)) r2
    simp only [List.length_cons]
    omega
  · exact le_rfl

/-- Attempt to match the karaoke-tag pattern `\\[kK][of]?(\d+)(\\-[^\\}]*)?`
(ass_core.py:794) at the head of `cs`; on success returns the full match,
the digit group, and the remaining input. -/
def matchKTag : Text → Option (Text × Text × Text)
  | '\\' :: c :: rest =>
    if c = 'k' ∨ c = 'K' then
      match kDigitsPart rest with
      | none => none
      | some (mid, ds, r) =>
        let t := optFxPart r
        some ('\\' :: c :: (mid ++ t.1), ds, t.2)
    else none
  | _ => none

theorem matchKTag_rest_lt {cs full ds rest : Text}
    (h : matchKTag cs = some (full, ds, rest)) : rest.length < cs.length := by
  unfold matchKTag at h
  split at h
  · split at h
    · split at h
      · cases h
      · rename_i c tl hif mid ds' r hk
        simp only [Option.some.injEq, Prod.mk.injEq] at h
        obtain ⟨-, -, hr⟩ := h
        subst hr
        have h1 := kDigitsPart_rest_lt hk
        have h2 := optFxPart_snd_le r
        simp only [List.length_cons]
        omega
    · cases h
  · cases h

/-- One piece of a tag-group content, as walked by
`re.finditer(r"\\[kK][of]?(\d+)(\\-[^\\}]*)?", token_value)` together with the
`last_end`/`start()` slicing around it (ass_core.py:793-827): either an
unmatched run or a karaoke-tag match with its digit group. -/
inductive KPiece where
  | plain (s : Text)
  | ktag (full : Text) (digits : Text)
deriving DecidableEq

/-- Structural worker for `kSplit`. -/
def kSplitF : Nat → Text → List KPiece
  | 0, _ => []
  | fuel + 1, cs =>
    match cs with
    | [] => []
    | c :: cs' =>
      match matchKTag (c :: cs') with
      | some (full, ds, rest) => KPiece.ktag full ds :: kSplitF fuel rest
      | none =>
        match kSplitF fuel cs' with
        | KPiece.plain s :: ps => KPiece.plain (c :: s) :: ps
        | ps => KPiece.plain [c] :: ps

/-- Split a tag-group content into unmatched runs and karaoke-tag matches,
left to right (the `finditer` loop of ass_core.py:793-827). Adjacent
unmatched characters are grouped into a single `plain` piece. -/
def kSplit (cs : Text) : List KPiece := kSplitF cs.length cs

theorem kSplitF_congr :
    ∀ (f1 : Nat) (f2 : Nat) (cs : Text), cs.length ≤ f1 → cs.length ≤ f2 →
      kSplitF f1 cs = kSplitF f2 cs := by
  intro f1
  induction f1 with
  | zero =>
    intro f2 cs h1 h2
    have : cs = [] := List.length_eq_zero.mp (Nat.le_zero.mp h1)
    subst this
    cases f2 <;> simp [kSplitF]
  | succ f1 ih =>
    intro f2 cs h1 h2
    cases f2 with
    | zero =>
      have : cs = [] := List.length_eq_zero.mp (Nat.le_zero.mp h2)
      subst this
      simp [kSplitF]
    | succ f2 =>
      rcases cs with - | ⟨c, cs'⟩
      · rw [kSplitF, kSplitF]
      · simp only [List.length_cons] at h1 h2
        rcases hm : matchKTag (c :: cs') with - | ⟨full, ds, rest⟩
        · rw [kSplitF, kSplitF]
          simp only [hm]
          rw [ih f2 cs' (by omega) (by omega)]
        · have hlt := matchKTag_rest_lt hm
          simp only [List.length_cons] at hlt
          rw [kSplitF, kSplitF]
          simp only [hm]
          rw [ih f2 rest (by omega) (by omega)]

/-- The recursion equation of `kSplit`. -/
theorem kSplit_eq (cs : Text) :
    kSplit cs =
      match cs with
      | [] => []
      | c :: cs' =>
        match matchKTag (c :: cs') with
        | some (full, ds, rest) => KPiece.ktag full ds :: kSplit rest
        | none =>
          match kSplit cs' with
          | KPiece.plain s :: ps => KPiece.plain (c :: s) :: ps
          | ps => KPiece.plain [c] :: ps := by
  unfold kSplit
  rcases cs with - | ⟨c, cs'⟩
  · rfl
  · rcases hm : matchKTag (c :: cs') with - | ⟨full, ds, rest⟩
    · rw [List.length_cons, kSplitF]
      simp only [hm]
    · have hlt := matchKTag_rest_lt hm
      simp only [List.length_cons] at hlt
      rw [List.length_cons, kSplitF]
      simp only [hm]
      rw [kSplitF_congr cs'.length rest.length rest (by omega) le_rfl]

/-- One parsed syllable record of the fold (the dicts appended to
`syllable_data`, ass_core.py:784-855). -/
structure SylData where
  tags : Text
  k_tag : Option Text
  k_duration : Option Text
  text : Text
deriving DecidableEq

/-- The fold accumulator (`current_tags`, `current_k_tag`,
`current_k_duration`, `current_text` and the grown `syllable_data` list,
ass_core.py:784-788). -/
structure KState where
  current_tags : Text
  current_k_tag : Option Text
  current_k_duration : Option Text
  current_text : Text
  out : List SylData
deriving DecidableEq

/-- Processing one piece of a tag token (the body of the `for k_match` loop
plus the surrounding slice appends, ass_core.py:797-827). -/
def procTagPiece (st : KState) : KPiece → KState
  | KPiece.plain s => { st with current_tags := st.current_tags ++ s }
  | KPiece.ktag full ds =>
    let st1 :=
      if st.current_k_tag.isSome then
        { st with
          out := st.out ++
            [⟨st.current_tags, st.current_k_tag, st.current_k_duration,
              st.current_text⟩],
          current_tags := [], current_text := [] }
      else st
    { st1 with
      current_tags := st1.current_tags ++ full,
      current_k_tag := some full,
      current_k_duration := some ds }

/-- Processing one token (ass_core.py:790-844). -/
def procToken (st : KState) : Token → KState
  | Token.tags tv => (kSplit tv).foldl procTagPiece st
  | Token.text v =>
    let st1 := { st with current_text := st.current_text ++ v }
    if st1.current_k_tag.isSome then
      { st1 with
        out := st1.out ++
          [⟨st1.current_tags, st1.current_k_tag, st1.current_k_duration,
            st1.current_text⟩],
        current_tags := [], current_k_tag := none, current_k_duration := none,
        current_text := [] }
    else st1

/-- The `syllable_data` list produced from the token list, including the
final flush (ass_core.py:784-855). -/
def syllableData (tokens : List Token) : List SylData :=
  let st := tokens.foldl procToken ⟨[], none, none, [], []⟩
  if st.current_k_tag.isSome || !st.current_text.isEmpty then
    st.out ++
      [⟨st.current_tags, st.current_k_tag, st.current_k_duration,
        st.current_text⟩]
  else st.out

/-- `re.findall(r"(\s*)([^\s]+)(\s*)", text)` (ass_core.py:680-681):
the `(prespace, word, postspace)` triples, left to right, each match
consuming its surrounding whitespace greedily. -/
def findWordsF : Nat → Text → List (Nat × Text × Nat)
  | 0, _ => []
  | fuel + 1, cs =>
    match (spanP isSpace cs).2 with
    | [] => []
    | x :: xs =>
      let t := spanP (fun c => !isSpace c) (x :: xs)
      let u := spanP isSpace t.2
      ((spanP isSpace cs).1.length, t.1, u.1.length) :: findWordsF fuel u.2

/-- `re.findall(r"(\s*)([^\s]+)(\s*)", text)` packaged with its worker. -/
def findWords (cs : Text) : List (Nat × Text × Nat) := findWordsF cs.length cs

theorem findWords_snd_lt (cs : Text) (x : Char) (xs : Text)
    (hr : (spanP isSpace cs).2 = x :: xs) :
    (spanP isSpace (spanP (fun c => !isSpace c) (x :: xs)).2).2.length < cs.length := by
  have hx : isSpace x = false := by
    rcases spanP_snd_cases isSpace cs with h' | ⟨c, cs', h', hc⟩
    · rw [h'] at hr; cases hr
    · rw [h'] at hr
      cases hr
      exact hc
  have h1 : (spanP (fun c => !isSpace c) (x :: xs)).2 =
      (spanP (fun c => !isSpace c) xs).2 := by
    simp [spanP, hx]
  have h2 := spanP_snd_length_le (fun c => !isSpace c) xs
  have h3 := spanP_snd_length_le isSpace ((spanP (fun c => !isSpace c) xs).2)
  have h4 := spanP_snd_length_le isSpace cs
  have h5 : (spanP isSpace (spanP (fun c => !isSpace c) (x :: xs)).2).2.length =
      (spanP isSpace (spanP (fun c => !isSpace c) xs).2).2.length := by rw [h1]
  rw [hr] at h4
  simp only [List.length_cons] at h4
  omega

theorem findWordsF_congr :
    ∀ (f1 : Nat) (f2 : Nat) (cs : Text), cs.length ≤ f1 → cs.length ≤ f2 →
      findWordsF f1 cs = findWordsF f2 cs := by
  intro f1
  induction f1 with
  | zero =>
    intro f2 cs h1 h2
    have : cs = [] := List.length_eq_zero.mp (Nat.le_zero.mp h1)
    subst this
    cases f2 <;> simp [findWordsF, spanP]
  | succ f1 ih =>
    intro f2 cs h1 h2
    cases f2 with
    | zero =>
      have : cs = [] := List.length_eq_zero.mp (Nat.le_zero.mp h2)
      subst this
      simp [findWordsF, spanP]
    | succ f2 =>
      rcases hr : (spanP isSpace cs).2 with - | ⟨x, xs⟩
      · rw [findWordsF, findWordsF, hr]
      · have hlt := findWords_snd_lt cs x xs hr
        rw [findWordsF, findWordsF]
        simp only [hr]
        rw [ih f2 _ (by omega) (by omega)]

/-- The recursion equation of `findWords`. -/
theorem findWords_eq (cs : Text) :
    findWords cs =
      match (spanP isSpace cs).2 with
      | [] => []
      | x :: xs =>
        let t := spanP (fun c => !isSpace c) (x :: xs)
        let u := spanP isSpace t.2
        ((spanP isSpace cs).1.length, t.1, u.1.length) :: findWords u.2 := by
  unfold findWords
  rcases hn : cs.length with - | n
  · have : cs = [] := List.length_eq_zero.mp hn
    subst this
    simp [findWordsF, spanP]
  · rcases hr : (spanP isSpace cs).2 with - | ⟨x, xs⟩
    · rw [findWordsF, hr]
    · have hlt := findWords_snd_lt cs x xs hr
      rw [findWordsF]
      simp only [hr]
      rw [findWordsF_congr n _ _ (by omega) le_rfl]

/-- `re.search(r"\\\-([^\s\\}]+)", tags)` (ass_core.py:876): the first inline
effect name, scanning left to right. -/
def searchInlineFx : Text → Option Text
  | [] => none
  | c :: cs =>
    match c, cs with
    | '\\', '-' :: rest =>
      let t := spanP (fun ch => !(isSpace ch ∨ ch = '\\' ∨ ch = '}' : Bool)) rest
      if t.1.isEmpty then searchInlineFx cs else some t.1
    | _, _ => searchInlineFx cs

/-- `len(s) - len(s.lstrip())`: the leading-whitespace count
(ass_core.py:878). -/
def prespaceOf (s : Text) : Nat := (spanP isSpace s).1.length

/-- `len(s) - len(s.rstrip())`: the trailing-whitespace count
(ass_core.py:879). -/
def postspaceOf (s : Text) : Nat := (spanP isSpace s.reverse).1.length

/-- `s.strip()` (ass_core.py:880). -/
def stripText (s : Text) : Text :=
  ((spanP isSpace ((spanP isSpace s).2.reverse)).2).reverse

/-- Python `int()` on a digit string (ass_core.py:884). -/
def natOfDigits (ds : Text) : Nat :=
  ds.foldl (fun n c => 10 * n + (c.toNat - '0'.toNat)) 0


/-- The style fields read by the extended pipeline (alignment code, the three
margins, letter spacing).  The remaining `Style` fields are opaque payload
for these computations. -/
structure TStyle where
  alignment : Int
  margin_l : Int
  margin_r : Int
  margin_v : Int
  spacing : Rat
deriving DecidableEq

/-- The raw line fields read by the extended pipeline. -/
structure TLineIn where
  start_time : Int
  end_time : Int
  margin_l : Int
  margin_r : Int
  margin_v : Int
  raw_text : Text
deriving DecidableEq

/-- A `Word` record (ass_core.py:226-264); position fields start unset. -/
structure TWord where
  i : Nat
  start_time : Int
  end_time : Int
  duration : Int
  text : Text
  prespace : Nat
  postspace : Nat
  width : Rat
  height : Rat
  x : Option Rat := none
  y : Option Rat := none
  left : Option Rat := none
  center : Option Rat := none
  right : Option Rat := none
  top : Option Rat := none
  middle : Option Rat := none
  bottom : Option Rat := none
deriving DecidableEq

/-- A `Syllable` record (ass_core.py:174-219); position fields start unset. -/
structure TSyl where
  i : Nat
  word_i : Nat
  start_time : Int
  end_time : Int
  duration : Int
  text : Text
  tags : Text
  inline_fx : Text
  prespace : Nat
  postspace : Nat
  width : Rat
  height : Rat
  x : Option Rat := none
  y : Option Rat := none
  left : Option Rat := none
  center : Option Rat := none
  right : Option Rat := none
  top : Option Rat := none
  middle : Option Rat := none
  bottom : Option Rat := none
deriving DecidableEq

/-- A `Char` record (ass_core.py:125-168); `syl_i` is unset when characters
are derived from words. -/
structure TChar where
  i : Nat
  word_i : Nat
  syl_i : Option Nat
  syl_char_i : Nat
  start_time : Int
  end_time : Int
  duration : Int
  text : Text
  inline_fx : Text
  width : Rat
  height : Rat
  x : Option Rat := none
  y : Option Rat := none
  left : Option Rat := none
  center : Option Rat := none
  right : Option Rat := none
  top : Option Rat := none
  middle : Option Rat := none
  bottom : Option Rat := none
deriving DecidableEq

/-- Building `line.words` (ass_core.py:679-698): one `Word` per regex match,
timed like the line, with measured extents and no positions yet. -/
def buildWordsGo (extents : Text → Rat × Rat) (st en du : Int) :
    Nat → List (Nat × Text × Nat) → List TWord
  | _, [] => []
  | wi, (pre, wtxt, post) :: rest =>
    { i := wi, start_time := st, end_time := en, duration := du,
      text := wtxt, prespace := pre, postspace := post,
      width := (extents wtxt).1, height := (extents wtxt).2 } ::
      buildWordsGo extents st en du (wi + 1) rest

/-- `line.words` from the stripped text. -/
def buildWords (extents : Text → Rat × Rat) (st en du : Int) (text : Text) :
    List TWord :=
  buildWordsGo extents st en du 0 (findWords text)

/-- A half-open character-offset range of one word (ass_core.py:858-868). -/
structure WordBound where
  start : Nat
  stop : Nat
  wi : Nat
deriving DecidableEq

/-- The running-cursor construction of `word_boundaries`
(ass_core.py:858-868): `start = idx + prespace`, `stop = start + len(text)`,
`idx = stop + postspace`. -/
def wordBoundariesGo : Nat → List TWord → List WordBound
  | _, [] => []
  | idx, w :: ws =>
    let start := idx + w.prespace
    let stop := start + w.text.length
    ⟨start, stop, w.i⟩ :: wordBoundariesGo (stop + w.postspace) ws

/-- `word_boundaries` for a word list. -/
def wordBoundaries (ws : List TWord) : List WordBound := wordBoundariesGo 0 ws

/-- The ascending scan `for start, end, w_i in word_boundaries: if start <=
syl_start < end: ...` with default 0 (ass_core.py:892-896). -/
def findWordI (bounds : List WordBound) (off : Nat) : Nat :=
  match bounds.find? (fun bd => decide (bd.start ≤ off) && decide (off < bd.stop)) with
  | some bd => bd.wi
  | none => 0

/-- Building `line.syls` from `syllable_data` (ass_core.py:870-916), threading
`si`, `last_time` and `syl_char_idx`.  When no karaoke tag is present the
code sets `duration = 0` and `end_time = last_time`, which the uniform
`end_time = last_time + duration` reproduces. -/
def buildSyls (extents : Text → Rat × Rat) (bounds : List WordBound) :
    List SylData → Nat → Int → Nat → List TSyl
  | [], _, _, _ => []
  | d :: ds, si, last_time, syl_char_idx =>
    let inline_fx := (searchInlineFx d.tags).getD []
    let pre := prespaceOf d.text
    let post := postspaceOf d.text
    let text_stripped := stripText d.text
    let duration : Int :=
      if d.k_tag.isSome then (natOfDigits (d.k_duration.getD []) : Int) * 10 else 0
    let end_time : Int := last_time + duration
    let syl_start := syl_char_idx + pre
    let wi := findWordI bounds syl_start
    { i := si, word_i := wi, start_time := last_time, end_time := end_time,
      duration := duration, text := text_stripped, tags := d.tags,
      inline_fx := inline_fx, prespace := pre, postspace := post,
      width := (extents text_stripped).1, height := (extents text_stripped).2 } ::
      buildSyls extents bounds ds (si + 1) end_time
        (syl_char_idx + pre + text_stripped.length + post)

/-- The inner character loop over one element''s
`" "*prespace + text + " "*postspace` (ass_core.py:998-1020). -/
def charsOfElGo (extents : Text → Rat × Rat) (word_i : Nat) (syl_i : Option Nat)
    (st en du : Int) (fx : Text) : Nat → Nat → Text → List TChar
  | _, _, [] => []
  | gi, ci, ch :: rest =>
    { i := gi, word_i := word_i, syl_i := syl_i, syl_char_i := ci,
      start_time := st, end_time := en, duration := du, text := [ch],
      inline_fx := fx, width := (extents [ch]).1, height := (extents [ch]).2 } ::
      charsOfElGo extents word_i syl_i st en du fx (gi + 1) (ci + 1) rest

/-- Characters derived from syllables (ass_core.py:991-1020 with
`words_or_syls = line.syls`). -/
def buildCharsSyls (extents : Text → Rat × Rat) : Nat → List TSyl → List TChar
  | _, [] => []
  | gi, s :: ss =>
    let el_text :=
      List.replicate s.prespace ' ' ++ s.text ++ List.replicate s.postspace ' '
    charsOfElGo extents s.word_i (some s.i) s.start_time s.end_time s.duration
        s.inline_fx gi 0 el_text ++
      buildCharsSyls extents (gi + el_text.length) ss

/-- Characters derived from words (ass_core.py:991-1020 with
`words_or_syls = line.words`): word link only, no syllable link, no inline
effect. -/
def buildCharsWords (extents : Text → Rat × Rat) : Nat → List TWord → List TChar
  | _, [] => []
  | gi, w :: ws =>
    let el_text :=
      List.replicate w.prespace ' ' ++ w.text ++ List.replicate w.postspace ' '
    charsOfElGo extents w.i none w.start_time w.end_time w.duration
        [] gi 0 el_text ++
      buildCharsWords extents (gi + el_text.length) ws

/-- `line.chars`: from syllables if any, else from words (ass_core.py:991-994). -/
def buildChars (extents : Text → Rat × Rat) (syls : List TSyl)
    (words : List TWord) : List TChar :=
  if syls.isEmpty then buildCharsWords extents 0 words
  else buildCharsSyls extents 0 syls

/-- The eight computed line position fields (ass_core.py:613-670). -/
structure LineGeom where
  left : Rat
  center : Rat
  right : Rat
  x : Rat
  top : Rat
  middle : Rat
  bottom : Rat
  y : Rat
deriving DecidableEq

/-- The line position computation (ass_core.py:613-670): effective margins,
column rule on `(alignment-1)%3` / `(alignment-2)%3`, row rule on
`alignment > 6` / `alignment > 3`. -/
def lineGeom (prx pry : Int) (style : TStyle) (ln : TLineIn) (w h : Rat) :
    LineGeom :=
  let tmp_margin_l : Int := if ln.margin_l ≠ 0 then ln.margin_l else style.margin_l
  let tmp_margin_r : Int := if ln.margin_r ≠ 0 then ln.margin_r else style.margin_r
  let left : Rat :=
    if (style.alignment - 1) % 3 = 0 then (tmp_margin_l : Rat)
    else if (style.alignment - 2) % 3 = 0 then
      (prx : Rat) / 2 - w / 2 + (tmp_margin_l : Rat) / 2 - (tmp_margin_r : Rat) / 2
    else (prx : Rat) - (tmp_margin_r : Rat) - w
  let center := left + w / 2
  let right := left + w
  let x : Rat :=
    if (style.alignment - 1) % 3 = 0 then left
    else if (style.alignment - 2) % 3 = 0 then center
    else right
  let tmp_margin_v : Int := if ln.margin_v ≠ 0 then ln.margin_v else style.margin_v
  let top : Rat :=
    if style.alignment > 6 then (tmp_margin_v : Rat)
    else if style.alignment > 3 then (pry : Rat) / 2 - h / 2
    else (pry : Rat) - (tmp_margin_v : Rat) - h
  let middle := top + h / 2
  let bottom := top + h
  let y : Rat :=
    if style.alignment > 6 then top
    else if style.alignment > 3 then middle
    else bottom
  ⟨left, center, right, x, top, middle, bottom, y⟩

/-- The left-to-right word layout (ass_core.py:702-733): cursor advance by
prespace gaps, width, postspace gaps and letter spacing; vertical fields
copied from the line. -/
def wordsHoriz (align : Int) (g : LineGeom) (space_width style_spacing : Rat) :
    Rat → List TWord → List TWord
  | _, [] => []
  | cur_x, w :: ws =>
    let cx := cur_x + (w.prespace : Rat) * (space_width + style_spacing)
    let left := cx
    let center := left + w.width / 2
    let right := left + w.width
    let x : Rat :=
      if (align - 1) % 3 = 0 then left
      else if (align - 2) % 3 = 0 then center
      else right
    { w with
        left := some left, center := some center, right := some right,
        x := some x, top := some g.top, middle := some g.middle,
        bottom := some g.bottom, y := some g.y } ::
      wordsHoriz align g space_width style_spacing
        (cx + w.width + (w.postspace : Rat) * (space_width + style_spacing) +
          style_spacing) ws

/-- The stacked word layout body (ass_core.py:741-766). -/
def wordsStackGo (align : Int) (g : LineGeom) (prx : Int) (max_width : Rat) :
    Rat → List TWord → List TWord
  | _, [] => []
  | cur_y, w :: ws =>
    let x_fix := (max_width - w.width) / 2
    let left : Rat :=
      if align = 4 then g.left + x_fix
      else if align = 5 then (prx : Rat) / 2 - w.width / 2
      else g.right - w.width - x_fix
    let center := left + w.width / 2
    let right := left + w.width
    let x : Rat := if align = 4 then left else if align = 5 then center else right
    { w with
        left := some left, center := some center, right := some right,
        x := some x, top := some cur_y, middle := some (cur_y + w.height / 2),
        bottom := some (cur_y + w.height), y := some (cur_y + w.height / 2) } ::
      wordsStackGo align g prx max_width (cur_y + w.height) ws

/-- The stacked word layout (ass_core.py:734-766): max width, summed height,
start at `play_res_y/2 - sum_height/2`. -/
def wordsStack (align : Int) (g : LineGeom) (prx pry : Int) (ws : List TWord) :
    List TWord :=
  let max_width := ws.foldl (fun m w => max m w.width) 0
  let sum_height := ws.foldl (fun a w => a + w.height) 0
  wordsStackGo align g prx max_width ((pry : Rat) / 2 - sum_height / 2) ws

/-- The word-level layout dispatch (ass_core.py:702): horizontal when
`alignment > 6 or alignment < 4`, else stacked — with no look at the
vertical-stack flag. -/
def layoutWords (align : Int) (g : LineGeom) (prx pry : Int)
    (space_width style_spacing : Rat) (ws : List TWord) : List TWord :=
  if align > 6 ∨ align < 4 then wordsHoriz align g space_width style_spacing g.left ws
  else wordsStack align g prx pry ws

/-- The left-to-right syllable layout (ass_core.py:925-951). -/
def sylsHoriz (align : Int) (g : LineGeom) (space_width style_spacing : Rat) :
    Rat → List TSyl → List TSyl
  | _, [] => []
  | cur_x, s :: ss =>
    let cx := cur_x + (s.prespace : Rat) * (space_width + style_spacing)
    let left := cx
    let center := left + s.width / 2
    let right := left + s.width
    let x : Rat :=
      if (align - 1) % 3 = 0 then left
      else if (align - 2) % 3 = 0 then center
      else right
    { s with
        left := some left, center := some center, right := some right,
        x := some x, top := some g.top, middle := some g.middle,
        bottom := some g.bottom, y := some g.y } ::
      sylsHoriz align g space_width style_spacing
        (cx + s.width + (s.postspace : Rat) * (space_width + style_spacing) +
          style_spacing) ss

/-- The stacked syllable layout body (ass_core.py:961-985); note alignment 5
centers on `line.center` here. -/
def sylsStackGo (align : Int) (g : LineGeom) (max_width : Rat) :
    Rat → List TSyl → List TSyl
  | _, [] => []
  | cur_y, s :: ss =>
    let x_fix := (max_width - s.width) / 2
    let left : Rat :=
      if align = 4 then g.left + x_fix
      else if align = 5 then g.center - s.width / 2
      else g.right - s.width - x_fix
    let center := left + s.width / 2
    let right := left + s.width
    let x : Rat := if align = 4 then left else if align = 5 then center else right
    { s with
        left := some left, center := some center, right := some right,
        x := some x, top := some cur_y, middle := some (cur_y + s.height / 2),
        bottom := some (cur_y + s.height), y := some (cur_y + s.height / 2) } ::
      sylsStackGo align g max_width (cur_y + s.height) ss

/-- The stacked syllable layout (ass_core.py:953-985). -/
def sylsStack (align : Int) (g : LineGeom) (pry : Int) (ss : List TSyl) :
    List TSyl :=
  let max_width := ss.foldl (fun m s => max m s.width) 0
  let sum_height := ss.foldl (fun a s => a + s.height) 0
  sylsStackGo align g max_width ((pry : Rat) / 2 - sum_height / 2) ss

/-- The syllable-level layout dispatch (ass_core.py:920-924): horizontal when
`alignment > 6 or alignment < 4 or not vertical_kanji`, else stacked. -/
def layoutSyls (align : Int) (vertical_kanji : Bool) (g : LineGeom) (pry : Int)
    (space_width style_spacing : Rat) (ss : List TSyl) : List TSyl :=
  if align > 6 ∨ align < 4 ∨ vertical_kanji = false then
    sylsHoriz align g space_width style_spacing g.left ss
  else sylsStack align g pry ss

/-- The left-to-right character layout (ass_core.py:1029-1049): no prespace
gaps, cursor advance by width plus letter spacing. -/
def charsHoriz (align : Int) (g : LineGeom) (style_spacing : Rat) :
    Rat → List TChar → List TChar
  | _, [] => []
  | cur_x, ch :: chs =>
    let left := cur_x
    let center := left + ch.width / 2
    let right := left + ch.width
    let x : Rat :=
      if (align - 1) % 3 = 0 then left
      else if (align - 2) % 3 = 0 then center
      else right
    { ch with
        left := some left, center := some center, right := some right,
        x := some x, top := some g.top, middle := some g.middle,
        bottom := some g.bottom, y := some g.y } ::
      charsHoriz align g style_spacing (cur_x + ch.width + style_spacing) chs

/-- The line fields recomputed by the stacked character layout
(ass_core.py:1058-1072). -/
structure LineFix where
  top : Rat
  middle : Rat
  bottom : Rat
  width : Rat
  height : Rat
  left : Rat
  center : Rat
  right : Rat
deriving DecidableEq

/-- The line fixups of the stacked character layout (ass_core.py:1058-1072):
alignment 4 keeps `left`, 5 keeps `center`, others keep `right`. -/
def charFix (align : Int) (g : LineGeom) (pry : Int)
    (max_width sum_height : Rat) : LineFix :=
  let top := (pry : Rat) / 2 - sum_height / 2
  let middle := (pry : Rat) / 2
  let bottom := top + sum_height
  if align = 4 then
    ⟨top, middle, bottom, max_width, sum_height,
      g.left, g.left + max_width / 2, g.left + max_width⟩
  else if align = 5 then
    ⟨top, middle, bottom, max_width, sum_height,
      g.center - max_width / 2, g.center, g.center - max_width / 2 + max_width⟩
  else
    ⟨top, middle, bottom, max_width, sum_height,
      g.right - max_width, g.right - max_width + max_width / 2, g.right⟩

/-- The stacked character layout body (ass_core.py:1074-1098), positioning
against the fixed-up line `left`/`right`. -/
def charsStackGo (align : Int) (fixLeft fixRight : Rat) (prx : Int)
    (max_width : Rat) : Rat → List TChar → List TChar
  | _, [] => []
  | cur_y, ch :: chs =>
    let x_fix := (max_width - ch.width) / 2
    let left : Rat :=
      if align = 4 then fixLeft + x_fix
      else if align = 5 then (prx : Rat) / 2 - ch.width / 2
      else fixRight - ch.width - x_fix
    let center := left + ch.width / 2
    let right := left + ch.width
    let x : Rat := if align = 4 then left else if align = 5 then center else right
    { ch with
        left := some left, center := some center, right := some right,
        x := some x, top := some cur_y, middle := some (cur_y + ch.height / 2),
        bottom := some (cur_y + ch.height), y := some (cur_y + ch.height / 2) } ::
      charsStackGo align fixLeft fixRight prx max_width (cur_y + ch.height) chs

/-- The stacked character layout with its line fixups
(ass_core.py:1050-1098). -/
def charsStack (align : Int) (g : LineGeom) (prx pry : Int)
    (chs : List TChar) : LineFix × List TChar :=
  let max_width := chs.foldl (fun m c => max m c.width) 0
  let sum_height := chs.foldl (fun a c => a + c.height) 0
  let fix := charFix align g pry max_width sum_height
  (fix, charsStackGo align fix.left fix.right prx max_width
    ((pry : Rat) / 2 - sum_height / 2) chs)

/-- The character-level layout dispatch (ass_core.py:1024-1028): same
condition as the syllable level; the stacked branch also returns the line
fixups. -/
def layoutChars (align : Int) (vertical_kanji : Bool) (g : LineGeom)
    (prx pry : Int) (style_spacing : Rat) (chs : List TChar) :
    Option LineFix × List TChar :=
  if align > 6 ∨ align < 4 ∨ vertical_kanji = false then
    (none, charsHoriz align g style_spacing g.left chs)
  else
    let r := charsStack align g prx pry chs
    (some r.1, r.2)

/-- The extended per-line output: fields of `Line` computed by
ass_core.py:596-1098 for a line with a resolved style. -/
structure TLineOut where
  duration : Int
  text : Text
  width : Rat
  height : Rat
  x : Option Rat
  y : Option Rat
  left : Option Rat
  center : Option Rat
  right : Option Rat
  top : Option Rat
  middle : Option Rat
  bottom : Option Rat
  words : List TWord
  syls : List TSyl
  chars : List TChar
deriving DecidableEq

/-- Python `v > 0` where `v : Optional[int]`: comparing `None` with an int
raises `TypeError`, modelled as the error case. -/
def gtZero : Option Int → Except Unit Bool
  | none => Except.error ()
  | some v => Except.ok (decide (0 < v))

/-- `self.meta.play_res_x > 0 and self.meta.play_res_y > 0`
(ass_core.py:613), with Python short-circuit evaluation. -/
def resPositive (prx pry : Option Int) : Except Unit Bool := do
  let bx ← gtZero prx
  if bx then gtZero pry else pure false

/-- `line.words` of the pipeline: built from the stripped text with the
line's timing (ass_core.py:676-698). -/
def pipeWords (extents : Text → Rat × Rat) (ln : TLineIn) : List TWord :=
  buildWords extents ln.start_time ln.end_time (ln.end_time - ln.start_time)
    (stripTags ln.raw_text)

/-- `line.syls` of the pipeline before layout (ass_core.py:768-916). -/
def pipeSyls (extents : Text → Rat × Rat) (ln : TLineIn) : List TSyl :=
  buildSyls extents (wordBoundaries (pipeWords extents ln))
    (syllableData (tokenize ln.raw_text)) 0 0 0

/-- The per-line extended computation when positioning is disabled
(ass_core.py:596-1098 with every `play_res_x > 0 and play_res_y > 0` guard
false): duration, stripped text, extents, words, syllables and characters
are built, no position field is ever assigned. -/
def extendNoPos (extents : Text → Rat × Rat) (_style : TStyle) (ln : TLineIn) :
    TLineOut :=
  { duration := ln.end_time - ln.start_time,
    text := stripTags ln.raw_text,
    width := (extents (stripTags ln.raw_text)).1,
    height := (extents (stripTags ln.raw_text)).2,
    x := none, y := none, left := none, center := none, right := none,
    top := none, middle := none, bottom := none,
    words := pipeWords extents ln, syls := pipeSyls extents ln,
    chars := buildChars extents (pipeSyls extents ln) (pipeWords extents ln) }

/-- The line geometry of the pipeline (ass_core.py:605-670). -/
def pipeGeom (ax ay : Int) (extents : Text → Rat × Rat) (style : TStyle)
    (ln : TLineIn) : LineGeom :=
  lineGeom ax ay style ln (extents (stripTags ln.raw_text)).1
    (extents (stripTags ln.raw_text)).2

/-- The laid-out words (ass_core.py:700-766). -/
def pipeWords1 (ax ay : Int) (extents : Text → Rat × Rat) (style : TStyle)
    (ln : TLineIn) : List TWord :=
  layoutWords style.alignment (pipeGeom ax ay extents style ln) ax ay
    ((extents [' ']).1) style.spacing (pipeWords extents ln)

/-- The laid-out syllables (ass_core.py:918-985). -/
def pipeSyls1 (ax ay : Int) (vk : Bool) (extents : Text → Rat × Rat)
    (style : TStyle) (ln : TLineIn) : List TSyl :=
  layoutSyls style.alignment vk (pipeGeom ax ay extents style ln) ay
    ((extents [' ']).1) style.spacing (pipeSyls extents ln)

/-- The character list and its layout with optional line fixups
(ass_core.py:987-1098). -/
def pipeCres (ax ay : Int) (vk : Bool) (extents : Text → Rat × Rat)
    (style : TStyle) (ln : TLineIn) : Option LineFix × List TChar :=
  layoutChars style.alignment vk (pipeGeom ax ay extents style ln) ax ay
    style.spacing
    (buildChars extents (pipeSyls1 ax ay vk extents style ln)
      (pipeWords1 ax ay extents style ln))

/-- The per-line extended computation when positioning is enabled
(ass_core.py:596-1098 with the resolution guards true): line geometry, then
word, syllable and character layout; the stacked character branch, when
taken, additionally rewrites the line fields with its fixups — rendered here
as per-field selection on the optional `LineFix` (the two `pure` records of
the source differ exactly in those fields). -/
def extendPos (ax ay : Int) (vk : Bool)
    (extents : Text → Rat × Rat) (style : TStyle) (ln : TLineIn) : TLineOut :=
  let g := pipeGeom ax ay extents style ln
  let cres := pipeCres ax ay vk extents style ln
  { duration := ln.end_time - ln.start_time,
    text := stripTags ln.raw_text,
    width := (cres.1.map (fun f => f.width)).getD
      (extents (stripTags ln.raw_text)).1,
    height := (cres.1.map (fun f => f.height)).getD
      (extents (stripTags ln.raw_text)).2,
    x := some g.x, y := some g.y,
    left := some ((cres.1.map (fun f => f.left)).getD g.left),
    center := some ((cres.1.map (fun f => f.center)).getD g.center),
    right := some ((cres.1.map (fun f => f.right)).getD g.right),
    top := some ((cres.1.map (fun f => f.top)).getD g.top),
    middle := some ((cres.1.map (fun f => f.middle)).getD g.middle),
    bottom := some ((cres.1.map (fun f => f.bottom)).getD g.bottom),
    words := pipeWords1 ax ay extents style ln,
    syls := pipeSyls1 ax ay vk extents style ln,
    chars := cres.2 }

/-- The per-line extended computation for a line with a resolved style
(ass_core.py:596-1098).  The four `play_res_x > 0 and play_res_y > 0` guards
(ass_core.py:613, 701, 919, 1023) evaluate identically within one line, so
the condition is evaluated once; an unset resolution raises at the first
guard, which is unconditional for a line with a resolved style. -/
def extendLine (prx pry : Option Int) (vertical_kanji : Bool)
    (extents : Text → Rat × Rat) (style : TStyle) (ln : TLineIn) :
    Except Unit TLineOut := do
  let posOK ← resPositive prx pry
  if posOK then
    pure (extendPos (prx.getD 0) (pry.getD 0) vertical_kanji extents style ln)
  else
    pure (extendNoPos extents style ln)

theorem resPositive_some (a b : Int) :
    resPositive (some a) (some b) =
      Except.ok (decide (0 < a) && decide (0 < b)) := by
  unfold resPositive
  rw [show gtZero (some a) = Except.ok (decide (0 < a)) from rfl]
  cases hd : decide (0 < a)
  · rfl
  · rfl

theorem extendLine_of_res_true {prx pry : Option Int}
    (vertical_kanji : Bool) (extents : Text → Rat × Rat) (style : TStyle)
    (ln : TLineIn) (hres : resPositive prx pry = Except.ok true) :
    extendLine prx pry vertical_kanji extents style ln =
      Except.ok (extendPos (prx.getD 0) (pry.getD 0) vertical_kanji extents
        style ln) := by
  unfold extendLine
  rw [hres]
  rfl

theorem extendLine_of_res_false {prx pry : Option Int}
    (vertical_kanji : Bool) (extents : Text → Rat × Rat) (style : TStyle)
    (ln : TLineIn) (hres : resPositive prx pry = Except.ok false) :
    extendLine prx pry vertical_kanji extents style ln =
      Except.ok (extendNoPos extents style ln) := by
  unfold extendLine
  rw [hres]
  rfl

theorem extendLine_of_res_error {prx pry : Option Int}
    (vertical_kanji : Bool) (extents : Text → Rat × Rat) (style : TStyle)
    (ln : TLineIn) (hres : resPositive prx pry = Except.error ()) :
    extendLine prx pry vertical_kanji extents style ln = Except.error () := by
  unfold extendLine
  rw [hres]
  rfl

theorem extendLine_cases {prx pry : Option Int} {vertical_kanji : Bool}
    {extents : Text → Rat × Rat} {style : TStyle} {ln : TLineIn}
    {out : TLineOut}
    (hok : extendLine prx pry vertical_kanji extents style ln = Except.ok out) :
    out = extendPos (prx.getD 0) (pry.getD 0) vertical_kanji extents style ln ∨
      out = extendNoPos extents style ln := by
  rcases hres : resPositive prx pry with e | pb
  · rw [extendLine_of_res_error vertical_kanji extents style ln (by
      cases e
      exact hres)] at hok
    cases hok
  · cases pb
    · rw [extendLine_of_res_false vertical_kanji extents style ln hres] at hok
      exact Or.inr (Except.ok.inj hok).symm
    · rw [extendLine_of_res_true vertical_kanji extents style ln hres] at hok
      exact Or.inl (Except.ok.inj hok).symm

/-- The event fields read by the lead-in/lead-out pass
(ass_core.py:590-594, 1100-1113). -/
structure EvLine where
  i : Nat
  style : Text
  start_time : Int
  end_time : Int
deriving DecidableEq

instance : Inhabited EvLine := ⟨⟨0, [], 0, 0⟩⟩

/-- The lines appended to `lines_by_styles[name]` (ass_core.py:590-594):
exactly the lines with that style name, in input order. -/
def styleGroup (lines : List EvLine) (name : Text) : List EvLine :=
  lines.filter (fun l => l.style == name)

/-- Stable insertion of `x` after every earlier element with a
less-or-equal start time. -/
def insertByStart (x : EvLine) : List EvLine → List EvLine
  | [] => [x]
  | y :: ys =>
    if y.start_time ≤ x.start_time then y :: insertByStart x ys
    else x :: y :: ys

/-- `lines_by_styles[style].sort(key=lambda x: x.start_time)`
(ass_core.py:1102): Python's stable ascending sort, modelled as stable
insertion sort (extensionally equal to any stable ascending sort). -/
def sortByStart (ls : List EvLine) : List EvLine :=
  ls.foldl (fun acc x => insertByStart x acc) []

/-- The sentinel `1000.1` ms. -/
def leadSentinel : Rat := 10001 / 10

/-- The index-driven `leadin`/`leadout` assignment over the sorted group
(ass_core.py:1103-1113), as `(leadin, leadout)` pairs parallel to the
group. -/
def annotate (g : List EvLine) : List (Rat × Rat) :=
  (List.range g.length).map fun li =>
    (if li = 0 then leadSentinel
      else ((g.getD li default).start_time : Rat) -
        ((g.getD (li - 1) default).end_time : Rat),
     if li = g.length - 1 then leadSentinel
      else ((g.getD (li + 1) default).start_time : Rat) -
        ((g.getD li default).end_time : Rat))

/-- The whole pass for one style group: collect, sort, annotate
(ass_core.py:1100-1113). -/
def leadPass (lines : List EvLine) (name : Text) : List (Rat × Rat) :=
  annotate (sortByStart (styleGroup lines name))

/-- `^\[([^\]]*)` (ass_core.py:443-446): a line starting with `[` is a
section header; its name is everything up to the first `]`. -/
def headerName (l : Text) : Option Text :=
  match l with
  | '[' :: rest => some (spanP (fun c => !(c = ']' : Bool)) rest).1
  | _ => none

/-- The section names having a parsing branch (ass_core.py:452-579). -/
def knownSection (s : Text) : Bool :=
  s == "Script Info".data || s == "Aegisub Project Garbage".data ||
    s == "V4+ Styles".data || s == "Events".data ||
    s == "Aegisub Extradata".data

/-- The per-line dispatch of the parsing loop (ass_core.py:439-582): a header
line updates the current section; any other line is handled by the branch of
the current section, and raises `ValueError` when that section is
unrecognized (the initial section being the empty string).  The per-section
record handling itself — external key-value/record splitting in the
specification's decomposition — consumes the line. -/
def runSections : Text → List Text → Except Unit Unit
  | _, [] => Except.ok ()
  | sec, l :: ls =>
    match headerName l with
    | some n => runSections n ls
    | none =>
      if knownSection sec then runSections sec ls else Except.error ()

/-- Parsing a whole file's lines (ass_core.py:439-582). -/
def parseSections (file : List Text) : Except Unit Unit :=
  runSections "".data file

/-- The section in effect when line `i` is processed: the name of the last
header among the first `i` lines, or the initial empty section. -/
def sectionAt (file : List Text) (i : Nat) : Text :=
  (file.take i).foldl (fun s l => (headerName l).getD s) "".data


/-- The section resulting from processing `pre` starting at section `sec`. -/
def sectionFrom (sec : Text) (pre : List Text) : Text :=
  pre.foldl (fun s l => (headerName l).getD s) sec

theorem sectionAt_eq_sectionFrom (file : List Text) (i : Nat) :
    sectionAt file i = sectionFrom "".data (file.take i) := rfl

theorem runSections_error_iff (sec : Text) (ls : List Text) :
    runSections sec ls = Except.error () ↔
      ∃ i, ∃ h : i < ls.length,
        headerName (ls.get ⟨i, h⟩) = none ∧
          knownSection (sectionFrom sec (ls.take i)) = false := by
  induction ls generalizing sec with
  | nil => simp [runSections]
  | cons l ls ih =>
    rcases hh : headerName l with - | n
    · by_cases hk : knownSection sec = true
      · rw [runSections]
        simp only [hh, hk, if_true, ih sec]
        constructor
        · rintro ⟨i, h, h1, h2⟩
          refine ⟨i + 1, Nat.succ_lt_succ h, h1, ?_⟩
          simpa [sectionFrom, hh] using h2
        · rintro ⟨i, h, h1, h2⟩
          rcases i with - | j
          · simp only [List.take_zero, sectionFrom, List.foldl_nil] at h2
            simp [hk] at h2
          · refine ⟨j, Nat.lt_of_succ_lt_succ h, h1, ?_⟩
            simpa [sectionFrom, hh] using h2
      · have hf : knownSection sec = false := by simpa using hk
        rw [runSections]
        simp only [hh, hf]
        constructor
        · intro _
          exact ⟨0, Nat.succ_pos _, hh, by simpa [sectionFrom] using hf⟩
        · intro _
          rfl
    · rw [runSections]
      simp only [hh, ih n]
      constructor
      · rintro ⟨i, h, h1, h2⟩
        refine ⟨i + 1, Nat.succ_lt_succ h, h1, ?_⟩
        simpa [sectionFrom, hh] using h2
      · rintro ⟨i, h, h1, h2⟩
        rcases i with - | j
        · simp only [List.get] at h1
          rw [hh] at h1
          cases h1
        · refine ⟨j, Nat.lt_of_succ_lt_succ h, h1, ?_⟩
          simpa [sectionFrom, hh] using h2

/-- C7 (amended): the load aborts with `ValueError` exactly when some
non-header line of the file is processed while the current section (the
latest header before it, initially the empty string) is unrecognized; in
particular an unknown header that no content line follows does not abort. -/
theorem claim_C7_amended (file : List Text) :
    parseSections file = Except.error () ↔
      ∃ i, ∃ h : i < file.length,
        headerName (file.get ⟨i, h⟩) = none ∧
          knownSection (sectionAt file i) = false := by
  unfold parseSections
  rw [runSections_error_iff]
  rfl

/-- C7 counterexample: a file consisting of a single unrecognized section
header `[Unknown]` loads successfully, against the claim that every input
containing an unknown section header aborts. -/
theorem claim_C7_counterexample :
    parseSections ["[Unknown]".data] = Except.ok () ∧
      headerName "[Unknown]".data = some "Unknown".data ∧
      knownSection "Unknown".data = false :=
  ⟨rfl, by decide, by decide⟩

/-- The style and line used by the concrete geometry checks. -/
def styleC9 : TStyle := ⟨5, 0, 0, 0, 0⟩

/-- A dialogue line with zero own margins. -/
def lineC9 : TLineIn := ⟨0, 1000, 0, 0, 0, "A".data⟩

/-- C9: alignment 5 in a 1920 by 1080 frame with line extents 200 by 50 and
zero effective margins places the line at `left=860, center=960, right=1060,
x=960, top=515, middle=540, bottom=565, y=540`. -/
theorem claim_C9_line_geometry :
    lineGeom 1920 1080 styleC9 lineC9 200 50 =
      ⟨860, 960, 1060, 960, 515, 540, 565, 540⟩ := by
  norm_num [lineGeom, styleC9, lineC9, LineGeom.mk.injEq]


/-- The sorting relation of the timing pass: ascending start times. -/
def startLE (a b : EvLine) : Prop := a.start_time ≤ b.start_time

theorem mem_insertByStart {z x : EvLine} {l : List EvLine} :
    z ∈ insertByStart x l ↔ z = x ∨ z ∈ l := by
  induction l with
  | nil => simp [insertByStart]
  | cons y ys ih =>
    rw [insertByStart]
    by_cases h : y.start_time ≤ x.start_time
    · simp only [h, if_true, List.mem_cons, ih]
      tauto
    · simp only [h, if_false, List.mem_cons]

theorem insertByStart_sorted {x : EvLine} {l : List EvLine}
    (h : l.Pairwise startLE) : (insertByStart x l).Pairwise startLE := by
  induction l with
  | nil => simp [insertByStart, List.pairwise_singleton]
  | cons y ys ih =>
    rw [List.pairwise_cons] at h
    obtain ⟨hy, hys⟩ := h
    rw [insertByStart]
    by_cases hle : y.start_time ≤ x.start_time
    · rw [if_pos hle, List.pairwise_cons]
      refine ⟨?_, ih hys⟩
      intro z hz
      rcases mem_insertByStart.mp hz with hz | hz
      · subst hz; exact hle
      · exact hy z hz
    · rw [if_neg hle, List.pairwise_cons]
      have hxy : startLE x y := le_of_lt (lt_of_not_le hle)
      refine ⟨?_, List.pairwise_cons.mpr ⟨hy, hys⟩⟩
      intro z hz
      rcases List.mem_cons.mp hz with hz | hz
      · subst hz; exact hxy
      · exact le_trans hxy (hy z hz)

theorem sortByStart_sorted_from (l acc : List EvLine)
    (h : acc.Pairwise startLE) :
    (l.foldl (fun a x => insertByStart x a) acc).Pairwise startLE := by
  induction l generalizing acc with
  | nil => simpa using h
  | cons x xs ih => exact ih (insertByStart x acc) (insertByStart_sorted h)

/-- The sorted group is ascending in start time. -/
theorem sortByStart_sorted (l : List EvLine) :
    (sortByStart l).Pairwise startLE :=
  sortByStart_sorted_from l [] List.Pairwise.nil

theorem filter_insertByStart (v : Int) (x : EvLine) (l : List EvLine)
    (hsort : l.Pairwise startLE) :
    (insertByStart x l).filter (fun e => e.start_time == v) =
      l.filter (fun e => e.start_time == v) ++
        (if x.start_time = v then [x] else []) := by
  induction l with
  | nil =>
    rw [insertByStart]
    by_cases hx : x.start_time = v <;> simp [List.filter_cons, hx]
  | cons y ys ih =>
    rw [List.pairwise_cons] at hsort
    obtain ⟨hy, hys⟩ := hsort
    rw [insertByStart]
    by_cases hle : y.start_time ≤ x.start_time
    · rw [if_pos hle]
      by_cases hyv : y.start_time = v <;>
        simp [List.filter_cons, hyv, ih hys]
    · rw [if_neg hle]
      have hlt : x.start_time < y.start_time := lt_of_not_le hle
      by_cases hx : x.start_time = v
      · have hnone : (y :: ys).filter (fun e => e.start_time == v) = [] := by
          rw [List.filter_eq_nil_iff]
          intro e he
          rcases List.mem_cons.mp he with he | he
          · subst he
            simp only [beq_iff_eq]
            omega
          · have := hy e he
            unfold startLE at this
            simp only [beq_iff_eq]
            omega
        rw [hnone]
        simp [List.filter_cons, hx, hnone, beq_iff_eq]
      · simp [List.filter_cons, hx, beq_iff_eq]

theorem filter_foldl_insert (v : Int) (l acc : List EvLine)
    (h : acc.Pairwise startLE) :
    (l.foldl (fun a x => insertByStart x a) acc).filter
        (fun e => e.start_time == v) =
      acc.filter (fun e => e.start_time == v) ++
        l.filter (fun e => e.start_time == v) := by
  induction l generalizing acc with
  | nil => simp
  | cons x xs ih =>
    rw [List.foldl_cons, ih (insertByStart x acc) (insertByStart_sorted h),
      filter_insertByStart v x acc h, List.filter_cons]
    by_cases hx : x.start_time = v <;> simp [hx]

/-- Stability of the sort: for every start value, the lines having it keep
their original relative order (their filtered subsequence is unchanged). -/
theorem filter_sortByStart (v : Int) (l : List EvLine) :
    (sortByStart l).filter (fun e => e.start_time == v) =
      l.filter (fun e => e.start_time == v) := by
  simpa using filter_foldl_insert v l [] List.Pairwise.nil

theorem length_insertByStart (x : EvLine) (l : List EvLine) :
    (insertByStart x l).length = l.length + 1 := by
  induction l with
  | nil => rfl
  | cons y ys ih =>
    rw [insertByStart]
    by_cases h : y.start_time ≤ x.start_time <;> simp [h, ih]

theorem length_sortByStart (l : List EvLine) :
    (sortByStart l).length = l.length := by
  suffices H : ∀ acc, (l.foldl (fun a x => insertByStart x a) acc).length =
      acc.length + l.length by
    simpa using H []
  induction l with
  | nil => simp
  | cons x xs ih =>
    intro acc
    rw [List.foldl_cons, ih (insertByStart x acc), length_insertByStart]
    simp only [List.length_cons]
    omega

theorem annotate_length (g : List EvLine) : (annotate g).length = g.length := by
  simp [annotate]

theorem annotate_getD (g : List EvLine) (i : Nat) (h : i < g.length) :
    (annotate g).getD i (0, 0) =
      (if i = 0 then leadSentinel
        else ((g.getD i default).start_time : Rat) -
          ((g.getD (i - 1) default).end_time : Rat),
       if i = g.length - 1 then leadSentinel
        else ((g.getD (i + 1) default).start_time : Rat) -
          ((g.getD i default).end_time : Rat)) := by
  have hlen : i < (annotate g).length := by rwa [annotate_length]
  rw [List.getD_eq_getElem _ _ hlen]
  unfold annotate
  rw [List.getElem_map, List.getElem_range]

/-- C5: for every list of parsed lines and style name, the style group
(the lines with that name, in input order) sorted ascending by start time is
ascending and stable on ties; the lead pass assigns the 1000.1 sentinel to
the first line's leadin and the last line's leadout, and to interior lines
the signed, unclamped gaps to the sorted neighbours; a singleton group gets
both sentinels. -/
theorem claim_C5_leadin_leadout (lines : List EvLine) (name : Text) :
    (sortByStart (styleGroup lines name)).Pairwise startLE ∧
    (∀ v : Int,
      (sortByStart (styleGroup lines name)).filter (fun e => e.start_time == v) =
        (styleGroup lines name).filter (fun e => e.start_time == v)) ∧
    (leadPass lines name).length = (styleGroup lines name).length ∧
    (∀ i, i < (sortByStart (styleGroup lines name)).length →
      (leadPass lines name).getD i (0, 0) =
        (if i = 0 then leadSentinel
          else (((sortByStart (styleGroup lines name)).getD i default).start_time : Rat) -
            (((sortByStart (styleGroup lines name)).getD (i - 1) default).end_time : Rat),
         if i = (sortByStart (styleGroup lines name)).length - 1 then leadSentinel
          else (((sortByStart (styleGroup lines name)).getD (i + 1) default).start_time : Rat) -
            (((sortByStart (styleGroup lines name)).getD i default).end_time : Rat))) ∧
    ((styleGroup lines name).length = 1 →
      leadPass lines name = [(leadSentinel, leadSentinel)]) := by
  refine ⟨sortByStart_sorted _, fun v => filter_sortByStart v _, ?_, ?_, ?_⟩
  · rw [leadPass, annotate_length, length_sortByStart]
  · intro i h
    exact annotate_getD _ i h
  · intro h1
    obtain ⟨x, hx⟩ := List.length_eq_one.mp h1
    rw [leadPass, hx]
    rfl


/-- A balanced, non-nested raw-text shape: an interleaving of plain runs and
`{...}` groups. -/
inductive RawPiece where
  | plain (s : Text)
  | group (s : Text)
deriving DecidableEq

def renderPiece : RawPiece → Text
  | RawPiece.plain s => s
  | RawPiece.group s => '{' :: s ++ ['}']

/-- The raw text denoted by a piece list (groups re-wrapped in braces). -/
def renderRaw (ps : List RawPiece) : Text := (ps.map renderPiece).flatten

/-- Well-formedness: no brace inside a plain run or a group body, making the
groups balanced and non-nested. -/
def pieceWF : RawPiece → Bool
  | RawPiece.plain s => !s.contains '{' && !s.contains '}'
  | RawPiece.group s => !s.contains '{' && !s.contains '}'

def piecesWF (ps : List RawPiece) : Bool := ps.all pieceWF

/-- C4: for every raw line text with balanced, non-nested `{...}` groups,
concatenating the tokenizer's output segments in order — re-wrapping each tag
segment in braces — reproduces the original raw text exactly (the law holds
for the tokenizer on arbitrary input, `rejoin_tokenize`; this instance
restricts it to the claim's inputs). -/
theorem claim_C4_round_trip (ps : List RawPiece) (_hwf : piecesWF ps = true) :
    rejoin (tokenize (renderRaw ps)) = renderRaw ps :=
  rejoin_tokenize (renderRaw ps)

/-- Witness for C4 on the pieces of `Hello {\k50}world`. -/
theorem claim_C4_witness :
    piecesWF [RawPiece.plain "Hello ".data,
        RawPiece.group ('\\' :: "k50".data),
        RawPiece.plain "world".data] = true ∧
      rejoin (tokenize (renderRaw [RawPiece.plain "Hello ".data,
          RawPiece.group ('\\' :: "k50".data),
          RawPiece.plain "world".data])) =
        renderRaw [RawPiece.plain "Hello ".data,
          RawPiece.group ('\\' :: "k50".data),
          RawPiece.plain "world".data] :=
  ⟨by decide, claim_C4_round_trip _ (by decide)⟩

/-- Constant zero text extents, for checks where measurements are
irrelevant. -/
def extC0 : Text → Rat × Rat := fun _ => (0, 0)

/-- The raw text `Hello {\k50}world` of the specification's example. -/
def rawC1 : Text := "Hello ".data ++ '{' :: '\\' :: "k50".data ++ '}' :: "world".data

/-- The syllables the pipeline builds for `rawC1` (the wiring of
ass_core.py:680-916 for a line with this raw text). -/
def sylsC1 : List TSyl :=
  buildSyls extC0 (wordBoundaries (buildWords extC0 0 1000 1000 (stripTags rawC1)))
    (syllableData (tokenize rawC1)) 0 0 0

/-- C1 counterexample: the syllable builder emits one syllable for
`Hello {\k50}world`, not the claimed two — pending text before the first
karaoke tag is not flushed when that tag opens (ass_core.py:804-823 close a
syllable only when a karaoke tag is already open), so `Hello ` merges into
the `\k50` syllable. -/
theorem claim_C1_counterexample : sylsC1.length ≠ 2 := by decide

/-- C1 (amended): for `Hello {\k50}world` the syllable builder produces
exactly one syllable: text `Hello world`, tags `\k50` (karaoke duration 50
centiseconds), duration 500 ms, `start_time` 0 and `end_time` 500. -/
theorem claim_C1_amended :
    sylsC1.map (fun s => (s.text, s.tags, s.duration, s.start_time, s.end_time)) =
      [("Hello world".data, '\\' :: "k50".data, 500, 0, 500)] := by
  decide

/-- A concrete three-line event list: two overlapping lines share style `A`,
one line has style `B`. -/
def linesC5 : List EvLine :=
  [⟨0, "A".data, 1000, 2000⟩, ⟨1, "A".data, 0, 1200⟩, ⟨2, "B".data, 5, 6⟩]

/-- Witness for C5: in the sorted `A` group the interior gap is negative
(overlap, not clamped) and the last line's leadout is the sentinel. -/
theorem claim_C5_witness :
    1 < (sortByStart (styleGroup linesC5 "A".data)).length ∧
    ((sortByStart (styleGroup linesC5 "A".data)).getD 1 default).start_time -
        ((sortByStart (styleGroup linesC5 "A".data)).getD 0 default).end_time < 0 ∧
    (leadPass linesC5 "A".data).getD 1 (0, 0) =
      ((((sortByStart (styleGroup linesC5 "A".data)).getD 1 default).start_time : Rat) -
          (((sortByStart (styleGroup linesC5 "A".data)).getD 0 default).end_time : Rat),
        leadSentinel) := by
  refine ⟨by decide, by decide, ?_⟩
  have H := (claim_C5_leadin_leadout linesC5 "A".data).2.2.2.1 1 (by decide)
  have hl : (sortByStart (styleGroup linesC5 "A".data)).length = 2 := by decide
  rw [H, hl]
  norm_num

/-- Does a token contain a karaoke-tag match? -/
def tokenHasK : Token → Bool
  | Token.tags tv => (kSplit tv).any fun p =>
      match p with
      | KPiece.ktag _ _ => true
      | KPiece.plain _ => false
  | Token.text _ => false

/-- Does the raw text contain any karaoke tag (in any of its tag groups)? -/
def hasKTags (cs : Text) : Bool := (tokenize cs).any tokenHasK

/-- The style used by concrete whole-pipeline checks. -/
def styleD : TStyle := ⟨5, 0, 0, 0, 0⟩

/-- A line with empty raw text. -/
def lineEmptyRaw : TLineIn := ⟨0, 1000, 0, 0, 0, []⟩

/-- C8 counterexample: a line with empty raw text (hence no karaoke tags and
empty stripped text) gets zero syllables, not the claimed one — the final
flush (ass_core.py:847) fires only when a karaoke tag is open or pending
text is nonempty. -/
theorem claim_C8_counterexample :
    hasKTags ([] : Text) = false ∧
      Except.map (fun o => o.syls.length)
          (extendLine (some 0) (some 1080) false extC0 styleD lineEmptyRaw) =
        Except.ok 0 :=
  ⟨by decide, rfl⟩


/-- The timing triple of a word. -/
def wtime (w : TWord) : Int × Int × Int := (w.start_time, w.end_time, w.duration)

theorem buildWordsGo_wtime (extents : Text → Rat × Rat) (st en du : Int) :
    ∀ (wi : Nat) (trips : List (Nat × Text × Nat)),
      ∀ w ∈ buildWordsGo extents st en du wi trips, wtime w = (st, en, du) := by
  intro wi trips
  induction trips generalizing wi with
  | nil => simp [buildWordsGo]
  | cons t ts ih =>
    rcases t with ⟨pre, wtxt, post⟩
    intro w hw
    rw [buildWordsGo] at hw
    rcases List.mem_cons.mp hw with hw | hw
    · subst hw; rfl
    · exact ih (wi + 1) w hw

theorem wordsHoriz_map_wtime (align : Int) (g : LineGeom) (sw sp : Rat) :
    ∀ (cx : Rat) (ws : List TWord),
      (wordsHoriz align g sw sp cx ws).map wtime = ws.map wtime := by
  intro cx ws
  induction ws generalizing cx with
  | nil => rfl
  | cons w ws ih =>
    rw [wordsHoriz]
    simp only [List.map_cons, ih]
    rfl

theorem wordsStackGo_map_wtime (align : Int) (g : LineGeom) (prx : Int)
    (mw : Rat) :
    ∀ (cy : Rat) (ws : List TWord),
      (wordsStackGo align g prx mw cy ws).map wtime = ws.map wtime := by
  intro cy ws
  induction ws generalizing cy with
  | nil => rfl
  | cons w ws ih =>
    rw [wordsStackGo]
    simp only [List.map_cons, ih]
    rfl

theorem layoutWords_map_wtime (align : Int) (g : LineGeom) (prx pry : Int)
    (sw sp : Rat) (ws : List TWord) :
    (layoutWords align g prx pry sw sp ws).map wtime = ws.map wtime := by
  unfold layoutWords wordsStack
  by_cases h : align > 6 ∨ align < 4
  · rw [if_pos h, wordsHoriz_map_wtime]
  · rw [if_neg h, wordsStackGo_map_wtime]

/-- C10: every `Word` built by the extended pipeline starts at the line's
start time, ends at the line's end time, and lasts the line's duration
`end_time - start_time`; the construction never reads karaoke information. -/
theorem claim_C10_word_timing (prx pry : Option Int) (vk : Bool)
    (extents : Text → Rat × Rat) (style : TStyle) (ln : TLineIn)
    (out : TLineOut)
    (hok : extendLine prx pry vk extents style ln = Except.ok out) :
    ∀ w ∈ out.words, w.start_time = ln.start_time ∧ w.end_time = ln.end_time ∧
      w.duration = ln.end_time - ln.start_time := by
  have hbase : ∀ w ∈ buildWords extents ln.start_time ln.end_time
      (ln.end_time - ln.start_time) (stripTags ln.raw_text),
      wtime w = (ln.start_time, ln.end_time, ln.end_time - ln.start_time) :=
    fun w hw => buildWordsGo_wtime extents _ _ _ 0 _ w hw
  have hmem : ∀ w ∈ out.words,
      wtime w = (ln.start_time, ln.end_time, ln.end_time - ln.start_time) := by
    rcases extendLine_cases hok with hout | hout
    · intro w hw
      rw [hout] at hw
      have hwords : (extendPos (prx.getD 0) (pry.getD 0) vk extents style ln).words =
          layoutWords style.alignment
            (lineGeom (prx.getD 0) (pry.getD 0) style ln
              (extents (stripTags ln.raw_text)).1 (extents (stripTags ln.raw_text)).2)
            (prx.getD 0) (pry.getD 0) ((extents [' ']).1) style.spacing
            (buildWords extents ln.start_time ln.end_time
              (ln.end_time - ln.start_time) (stripTags ln.raw_text)) := rfl
      rw [hwords] at hw
      have hmap := layoutWords_map_wtime style.alignment
        (lineGeom (prx.getD 0) (pry.getD 0) style ln
          (extents (stripTags ln.raw_text)).1 (extents (stripTags ln.raw_text)).2)
        (prx.getD 0) (pry.getD 0) ((extents [' ']).1) style.spacing
        (buildWords extents ln.start_time ln.end_time
          (ln.end_time - ln.start_time) (stripTags ln.raw_text))
      have : wtime w ∈ (layoutWords style.alignment
          (lineGeom (prx.getD 0) (pry.getD 0) style ln
            (extents (stripTags ln.raw_text)).1 (extents (stripTags ln.raw_text)).2)
          (prx.getD 0) (pry.getD 0) ((extents [' ']).1) style.spacing
          (buildWords extents ln.start_time ln.end_time
            (ln.end_time - ln.start_time) (stripTags ln.raw_text))).map wtime :=
        List.mem_map_of_mem wtime hw
      rw [hmap] at this
      obtain ⟨w0, hw0, hww⟩ := List.mem_map.mp this
      rw [← hww]
      exact hbase w0 hw0
    · intro w hw
      rw [hout] at hw
      exact hbase w hw
  intro w hw
  have := hmem w hw
  unfold wtime at this
  exact ⟨congrArg (fun p => p.1) this,
    congrArg (fun p => p.2.1) this, congrArg (fun p => p.2.2) this⟩

/-- A default word, syllable and char for `getD`-style witnesses. -/
def dWord : TWord :=
  ⟨0, 0, 0, 0, [], 0, 0, 0, 0, none, none, none, none, none, none, none, none⟩

/-- The line used by the C10 witness: two words, a karaoke tag. -/
def lineC10 : TLineIn :=
  ⟨100, 700, 0, 0, 0, "ab ".data ++ '{' :: '\\' :: "k30".data ++ '}' :: "cd".data⟩

/-- Witness for C10 on a concrete two-word karaoke line with positioning
disabled (resolution 0): the first word carries the line timing. -/
theorem claim_C10_witness :
    extendLine (some 0) (some 1080) false extC0 styleD lineC10 =
      Except.ok (extendNoPos extC0 styleD lineC10) ∧
    ((extendNoPos extC0 styleD lineC10).words.getD 0 dWord).start_time = 100 ∧
    ((extendNoPos extC0 styleD lineC10).words.getD 0 dWord).end_time = 700 ∧
    ((extendNoPos extC0 styleD lineC10).words.getD 0 dWord).duration = 600 := by
  have hok : extendLine (some 0) (some 1080) false extC0 styleD lineC10 =
      Except.ok (extendNoPos extC0 styleD lineC10) := rfl
  have hmem : (extendNoPos extC0 styleD lineC10).words.getD 0 dWord ∈
      (extendNoPos extC0 styleD lineC10).words := by decide
  have H := claim_C10_word_timing (some 0) (some 1080) false extC0 styleD
    lineC10 (extendNoPos extC0 styleD lineC10) hok
    ((extendNoPos extC0 styleD lineC10).words.getD 0 dWord) hmem
  exact ⟨hok, H.1, H.2.1, H.2.2⟩


/-- A word with every position field unset and measured extents. -/
def wordUnpositioned (extents : Text → Rat × Rat) (w : TWord) : Prop :=
  w.x = none ∧ w.y = none ∧ w.left = none ∧ w.center = none ∧
    w.right = none ∧ w.top = none ∧ w.middle = none ∧ w.bottom = none ∧
    w.width = (extents w.text).1 ∧ w.height = (extents w.text).2

/-- A syllable with every position field unset and measured extents. -/
def sylUnpositioned (extents : Text → Rat × Rat) (s : TSyl) : Prop :=
  s.x = none ∧ s.y = none ∧ s.left = none ∧ s.center = none ∧
    s.right = none ∧ s.top = none ∧ s.middle = none ∧ s.bottom = none ∧
    s.width = (extents s.text).1 ∧ s.height = (extents s.text).2

/-- A character with every position field unset and measured extents. -/
def charUnpositioned (extents : Text → Rat × Rat) (c : TChar) : Prop :=
  c.x = none ∧ c.y = none ∧ c.left = none ∧ c.center = none ∧
    c.right = none ∧ c.top = none ∧ c.middle = none ∧ c.bottom = none ∧
    c.width = (extents c.text).1 ∧ c.height = (extents c.text).2

theorem buildWordsGo_unpos (extents : Text → Rat × Rat) (st en du : Int) :
    ∀ (wi : Nat) (trips : List (Nat × Text × Nat)),
      ∀ w ∈ buildWordsGo extents st en du wi trips, wordUnpositioned extents w := by
  intro wi trips
  induction trips generalizing wi with
  | nil => simp [buildWordsGo]
  | cons t ts ih =>
    rcases t with ⟨pre, wtxt, post⟩
    intro w hw
    rw [buildWordsGo] at hw
    rcases List.mem_cons.mp hw with hw | hw
    · subst hw
      exact ⟨rfl, rfl, rfl, rfl, rfl, rfl, rfl, rfl, rfl, rfl⟩
    · exact ih (wi + 1) w hw

theorem buildSyls_unpos (extents : Text → Rat × Rat) (bounds : List WordBound) :
    ∀ (ds : List SylData) (si : Nat) (lt : Int) (idx : Nat),
      ∀ s ∈ buildSyls extents bounds ds si lt idx, sylUnpositioned extents s := by
  intro ds
  induction ds with
  | nil => simp [buildSyls]
  | cons d rest ih =>
    intro si lt idx s hs
    rw [buildSyls] at hs
    rcases List.mem_cons.mp hs with hs | hs
    · subst hs
      exact ⟨rfl, rfl, rfl, rfl, rfl, rfl, rfl, rfl, rfl, rfl⟩
    · exact ih _ _ _ s hs

theorem charsOfElGo_unpos (extents : Text → Rat × Rat) (word_i : Nat)
    (syl_i : Option Nat) (st en du : Int) (fx : Text) :
    ∀ (gi ci : Nat) (el_text : Text),
      ∀ c ∈ charsOfElGo extents word_i syl_i st en du fx gi ci el_text,
        charUnpositioned extents c := by
  intro gi ci el_text
  induction el_text generalizing gi ci with
  | nil => simp [charsOfElGo]
  | cons ch rest ih =>
    intro c hc
    rw [charsOfElGo] at hc
    rcases List.mem_cons.mp hc with hc | hc
    · subst hc
      exact ⟨rfl, rfl, rfl, rfl, rfl, rfl, rfl, rfl, rfl, rfl⟩
    · exact ih (gi + 1) (ci + 1) c hc

theorem buildCharsSyls_unpos (extents : Text → Rat × Rat) :
    ∀ (gi : Nat) (ss : List TSyl),
      ∀ c ∈ buildCharsSyls extents gi ss, charUnpositioned extents c := by
  intro gi ss
  induction ss generalizing gi with
  | nil => simp [buildCharsSyls]
  | cons s rest ih =>
    intro c hc
    rw [buildCharsSyls] at hc
    rcases List.mem_append.mp hc with hc | hc
    · exact charsOfElGo_unpos extents _ _ _ _ _ _ _ _ _ c hc
    · exact ih _ c hc

theorem buildCharsWords_unpos (extents : Text → Rat × Rat) :
    ∀ (gi : Nat) (ws : List TWord),
      ∀ c ∈ buildCharsWords extents gi ws, charUnpositioned extents c := by
  intro gi ws
  induction ws generalizing gi with
  | nil => simp [buildCharsWords]
  | cons w rest ih =>
    intro c hc
    rw [buildCharsWords] at hc
    rcases List.mem_append.mp hc with hc | hc
    · exact charsOfElGo_unpos extents _ _ _ _ _ _ _ _ _ c hc
    · exact ih _ c hc

theorem buildChars_unpos (extents : Text → Rat × Rat) (ss : List TSyl)
    (ws : List TWord) :
    ∀ c ∈ buildChars extents ss ws, charUnpositioned extents c := by
  unfold buildChars
  by_cases h : ss.isEmpty
  · rw [if_pos h]
    exact buildCharsWords_unpos extents 0 ws
  · rw [if_neg h]
    exact buildCharsSyls_unpos extents 0 ss

/-- C3 (amended): when the frame resolution is set but not positive in both
dimensions, loading completes, no position fields are computed at any
hierarchy level, and width/height are still measured for the line, words,
syllables and characters.  (When the resolution is unset the load aborts —
see the counterexample.) -/
theorem claim_C3_amended (a b : Int) (vk : Bool) (extents : Text → Rat × Rat)
    (style : TStyle) (ln : TLineIn) (hnp : ¬(0 < a ∧ 0 < b)) :
    extendLine (some a) (some b) vk extents style ln =
      Except.ok (extendNoPos extents style ln) ∧
    (extendNoPos extents style ln).x = none ∧
    (extendNoPos extents style ln).y = none ∧
    (extendNoPos extents style ln).left = none ∧
    (extendNoPos extents style ln).center = none ∧
    (extendNoPos extents style ln).right = none ∧
    (extendNoPos extents style ln).top = none ∧
    (extendNoPos extents style ln).middle = none ∧
    (extendNoPos extents style ln).bottom = none ∧
    (extendNoPos extents style ln).width = (extents (stripTags ln.raw_text)).1 ∧
    (extendNoPos extents style ln).height = (extents (stripTags ln.raw_text)).2 ∧
    (∀ w ∈ (extendNoPos extents style ln).words, wordUnpositioned extents w) ∧
    (∀ s ∈ (extendNoPos extents style ln).syls, sylUnpositioned extents s) ∧
    (∀ c ∈ (extendNoPos extents style ln).chars, charUnpositioned extents c) := by
  have hfalse : (decide (0 < a) && decide (0 < b)) = false := by
    rcases Bool.eq_false_or_eq_true (decide (0 < a) && decide (0 < b)) with h | h
    · exfalso
      apply hnp
      constructor
      · exact of_decide_eq_true (Bool.and_elim_left h)
      · exact of_decide_eq_true (Bool.and_elim_right h)
    · exact h
  have hres : resPositive (some a) (some b) = Except.ok false := by
    rw [resPositive_some, hfalse]
  refine ⟨extendLine_of_res_false vk extents style ln hres,
    rfl, rfl, rfl, rfl, rfl, rfl, rfl, rfl, rfl, rfl, ?_, ?_, ?_⟩
  · exact buildWordsGo_unpos extents _ _ _ 0 _
  · exact buildSyls_unpos extents _ _ 0 0 0
  · exact buildChars_unpos extents _ _

/-- C3 counterexample: with an unset horizontal frame resolution, the load
of a line with a resolved style does not complete — the comparison
`self.meta.play_res_x > 0` raises `TypeError` (ass_core.py:613). -/
theorem claim_C3_counterexample :
    extendLine none (some 1080) false extC0 styleD lineC10 =
      Except.error () := rfl

/-- Witness for C3 on a concrete line with resolution 0 by 1080. -/
theorem claim_C3_witness :
    ¬((0:Int) < 0 ∧ (0:Int) < 1080) ∧
    extendLine (some 0) (some 1080) true extC0 styleD lineC10 =
      Except.ok (extendNoPos extC0 styleD lineC10) ∧
    (extendNoPos extC0 styleD lineC10).left = none ∧
    ((extendNoPos extC0 styleD lineC10).words.getD 0 dWord).left = none ∧
    ((extendNoPos extC0 styleD lineC10).words.getD 0 dWord).width =
      (extC0 ((extendNoPos extC0 styleD lineC10).words.getD 0 dWord).text).1 := by
  have hnp : ¬((0:Int) < 0 ∧ (0:Int) < 1080) := by decide
  have H := claim_C3_amended 0 1080 true extC0 styleD lineC10 hnp
  have hmem : (extendNoPos extC0 styleD lineC10).words.getD 0 dWord ∈
      (extendNoPos extC0 styleD lineC10).words := by decide
  have hw := H.2.2.2.2.2.2.2.2.2.2.2.1 _ hmem
  exact ⟨hnp, H.1, H.2.2.1, hw.2.2.1, hw.2.2.2.2.2.2.2.2.1⟩


/-- C2 (amended): syllables and characters are stacked top-to-bottom exactly
when the alignment is in the middle row (4, 5, 6) and the vertical-stack
flag is enabled; words, however, are stacked whenever the alignment is in
the middle row, regardless of the flag (ass_core.py:702 checks only the
alignment); every other case is laid out left-to-right. -/
theorem claim_C2_amended (align : Int) (vk : Bool) (g : LineGeom)
    (prx pry : Int) (sw sp : Rat) (ws : List TWord) (ss : List TSyl)
    (chs : List TChar) :
    (layoutWords align g prx pry sw sp ws =
      if 4 ≤ align ∧ align ≤ 6 then wordsStack align g prx pry ws
      else wordsHoriz align g sw sp g.left ws) ∧
    (layoutSyls align vk g pry sw sp ss =
      if 4 ≤ align ∧ align ≤ 6 ∧ vk = true then sylsStack align g pry ss
      else sylsHoriz align g sw sp g.left ss) ∧
    (layoutChars align vk g prx pry sp chs =
      if 4 ≤ align ∧ align ≤ 6 ∧ vk = true then
        (some (charsStack align g prx pry chs).1,
          (charsStack align g prx pry chs).2)
      else (none, charsHoriz align g sp g.left chs)) := by
  refine ⟨?_, ?_, ?_⟩
  · unfold layoutWords
    by_cases h : 4 ≤ align ∧ align ≤ 6
    · rw [if_pos h, if_neg (show ¬(align > 6 ∨ align < 4) by omega)]
    · rw [if_neg h, if_pos (show align > 6 ∨ align < 4 by omega)]
  · unfold layoutSyls
    by_cases h : 4 ≤ align ∧ align ≤ 6 ∧ vk = true
    · obtain ⟨h1, h2, h3⟩ := h
      rw [if_neg (show ¬(align > 6 ∨ align < 4 ∨ vk = false) by
            rintro (hh | hh | hh)
            · omega
            · omega
            · rw [h3] at hh
              cases hh),
        if_pos (show 4 ≤ align ∧ align ≤ 6 ∧ vk = true from ⟨h1, h2, h3⟩)]
    · have hcond : align > 6 ∨ align < 4 ∨ vk = false := by
        by_cases hv : vk = true
        · simp only [hv, and_true] at h
          omega
        · exact Or.inr (Or.inr (by simpa using hv))
      rw [if_pos hcond, if_neg h]
  · unfold layoutChars charsStack
    by_cases h : 4 ≤ align ∧ align ≤ 6 ∧ vk = true
    · obtain ⟨h1, h2, h3⟩ := h
      rw [if_neg (show ¬(align > 6 ∨ align < 4 ∨ vk = false) by
            rintro (hh | hh | hh)
            · omega
            · omega
            · rw [h3] at hh
              cases hh),
        if_pos (show 4 ≤ align ∧ align ≤ 6 ∧ vk = true from ⟨h1, h2, h3⟩)]
    · have hcond : align > 6 ∨ align < 4 ∨ vk = false := by
        by_cases hv : vk = true
        · simp only [hv, and_true] at h
          omega
        · exact Or.inr (Or.inr (by simpa using hv))
      rw [if_pos hcond, if_neg h]

theorem layoutChars_fst_of_not_vk (align : Int) (g : LineGeom) (prx pry : Int)
    (sp : Rat) (chs : List TChar) :
    (layoutChars align false g prx pry sp chs).1 = none := by
  unfold layoutChars
  rw [if_pos (Or.inr (Or.inr rfl))]

/-- Extents used by the C2 counterexample: one character measures 10 by 20,
two characters 20 by 20, the whole line 50 by 20. -/
def extC2 : Text → Rat × Rat := fun s =>
  if s.length = 2 then (20, 20) else if s.length = 1 then (10, 20) else (50, 20)

/-- The two-word line of the C2 counterexample. -/
def lineC2 : TLineIn := ⟨0, 1000, 0, 0, 0, "ab cd".data⟩

/-- C2 counterexample: with vertical-stack mode NOT enabled
(`vertical_kanji = false`) and alignment 5, the pipeline still stacks the
two words vertically — their tops are 520 and 540 while the line's own top
is 530 (a left-to-right word layout copies the line's top to every word). -/
theorem claim_C2_counterexample :
    extendLine (some 1920) (some 1080) false extC2 styleD lineC2 =
      Except.ok (extendPos 1920 1080 false extC2 styleD lineC2) ∧
    (extendPos 1920 1080 false extC2 styleD lineC2).words.map (fun w => w.top) =
      [some 520, some 540] ∧
    (extendPos 1920 1080 false extC2 styleD lineC2).top = some 530 := by
  have hres : resPositive (some 1920) (some 1080) = Except.ok true := rfl
  have hgtop : (pipeGeom 1920 1080 extC2 styleD lineC2).top = 530 := by
    unfold pipeGeom
    rw [show (extC2 (stripTags lineC2.raw_text)).1 = 50 from by decide,
      show (extC2 (stripTags lineC2.raw_text)).2 = 20 from by decide]
    norm_num [lineGeom, styleD, lineC2]
  refine ⟨extendLine_of_res_true false extC2 styleD lineC2 hres, ?_, ?_⟩
  · rw [show (extendPos 1920 1080 false extC2 styleD lineC2).words =
        pipeWords1 1920 1080 extC2 styleD lineC2 from rfl]
    unfold pipeWords1
    rw [show pipeWords extC2 lineC2 =
        [⟨0, 0, 1000, 1000, "ab".data, 0, 1, 20, 20,
          none, none, none, none, none, none, none, none⟩,
         ⟨1, 0, 1000, 1000, "cd".data, 0, 0, 20, 20,
          none, none, none, none, none, none, none, none⟩] from by decide]
    rw [show styleD.alignment = 5 from rfl]
    unfold layoutWords
    rw [if_neg (show ¬((5:Int) > 6 ∨ (5:Int) < 4) by omega)]
    unfold wordsStack
    simp only [List.foldl_cons, List.foldl_nil]
    rw [wordsStackGo, wordsStackGo, wordsStackGo]
    simp only [List.map_cons, List.map_nil]
    norm_num
  · rw [show (extendPos 1920 1080 false extC2 styleD lineC2).top =
        some (((pipeCres 1920 1080 false extC2 styleD lineC2).1.map
          (fun f => f.top)).getD (pipeGeom 1920 1080 extC2 styleD lineC2).top)
        from rfl]
    unfold pipeCres
    rw [layoutChars_fst_of_not_vk]
    rw [show (((none : Option LineFix).map (fun f => f.top)).getD
        (pipeGeom 1920 1080 extC2 styleD lineC2).top) =
      (pipeGeom 1920 1080 extC2 styleD lineC2).top from rfl, hgtop]


/-- The concatenation of the text segments of a token list. -/
def textTokensConcat (ts : List Token) : Text :=
  (ts.map fun t =>
    match t with
    | Token.text s => s
    | Token.tags _ => []).flatten

theorem textTokensConcat_cons_tags (i : Text) (ts : List Token) :
    textTokensConcat (Token.tags i :: ts) = textTokensConcat ts := by
  simp [textTokensConcat]

theorem textTokensConcat_cons_text (s : Text) (ts : List Token) :
    textTokensConcat (Token.text s :: ts) = s ++ textTokensConcat ts := by
  simp [textTokensConcat]

theorem textTokensConcat_append (xs ys : List Token) :
    textTokensConcat (xs ++ ys) = textTokensConcat xs ++ textTokensConcat ys := by
  simp [textTokensConcat]

theorem classify_text_of_no_open (a : Text) (ha : ∀ c ∈ a, c ≠ '{') :
    classify a = Token.text a := by
  unfold classify
  rcases a with - | ⟨c, rest⟩
  · rw [if_neg]
    rintro ⟨h1, -⟩
    cases h1
  · have hc : c ≠ '{' := ha c (List.mem_cons_self c rest)
    rw [if_neg]
    rintro ⟨h1, -⟩
    exact hc (by simpa using h1)

theorem classify_group (inner : Text) :
    classify ('{' :: inner ++ ['}']) = Token.tags inner := by
  unfold classify
  rw [if_pos]
  · congr 1
    simp
  · refine ⟨rfl, ?_⟩
    exact List.getLast?_concat _

theorem findGroup_none_not_group {cs : Text} (h : findGroup cs = none)
    (hne : cs ≠ []) : ¬(cs.head? = some '{' ∧ cs.getLast? = some '}') := by
  rintro ⟨h1, h2⟩
  rcases findGroup_none h with hall | ⟨a, b, hcs, ha, hb⟩
  · rcases cs with - | ⟨c, rest⟩
    · exact hne rfl
    · exact hall c (List.mem_cons_self c rest) (by simpa using h1)
  · rcases b.eq_nil_or_concat with hb0 | ⟨ys, y, hb0⟩
    · subst hb0
      rw [hcs] at h2
      have : (a ++ ['{']).getLast? = some '{' := List.getLast?_concat _
      rw [this] at h2
      cases h2
    · subst hb0
      rw [hcs] at h2
      have hlast : (a ++ '{' :: ys.concat y).getLast? = some y := by
        rw [show a ++ '{' :: ys.concat y = (a ++ '{' :: ys) ++ [y] by
          simp [List.concat_eq_append]]
        exact List.getLast?_concat _
      rw [hlast] at h2
      have hy : y ∈ ys.concat y := by simp
      exact hb y hy (by simpa using h2)

theorem tokenize_none (cs : Text) (hg : findGroup cs = none) :
    tokenize cs = if cs.isEmpty then [] else [classify cs] := by
  unfold tokenize
  rw [splitTagsParts_eq]
  simp only [hg]
  by_cases hc : cs.isEmpty
  · simp [hc]
  · simp [hc]

theorem tokenize_some (cs a inner rest : Text)
    (hg : findGroup cs = some (a, inner, rest)) :
    tokenize cs = (if a.isEmpty then [] else [classify a]) ++
      Token.tags inner :: tokenize rest := by
  unfold tokenize
  rw [splitTagsParts_eq]
  simp only [hg]
  rw [List.filter_cons, List.filter_cons]
  have hgrp : (!('{' :: inner ++ ['}']).isEmpty) = true := rfl
  by_cases ha : a.isEmpty
  · have ha1 : (!a.isEmpty) = false := by simp [ha]
    rw [ha1, hgrp]
    simp only [Bool.false_eq_true, if_false, if_true]
    rw [List.map_cons, classify_group, if_pos ha]
    rfl
  · have ha1 : (!a.isEmpty) = true := by simp [ha]
    rw [ha1, hgrp]
    simp only [if_true]
    rw [List.map_cons, List.map_cons, classify_group, if_neg ha]
    rfl

theorem textConcat_tokenize_bounded :
    ∀ (n : Nat) (cs : Text), cs.length ≤ n →
      textTokensConcat (tokenize cs) = stripTags cs := by
  intro n
  induction n with
  | zero =>
    intro cs hle
    have : cs = [] := List.length_eq_zero.mp (Nat.le_zero.mp hle)
    subst this
    rfl
  | succ n ih =>
    intro cs hle
    rcases hg : findGroup cs with - | ⟨a, inner, rest⟩
    · rw [tokenize_none cs hg, stripTags_eq]
      simp only [hg]
      by_cases hc : cs.isEmpty
      · have : cs = [] := by simpa [List.isEmpty_iff] using hc
        subst this
        rfl
      · rw [if_neg hc]
        have hcl : classify cs = Token.text cs := by
          unfold classify
          rw [if_neg (findGroup_none_not_group hg
            (by simpa [List.isEmpty_iff] using hc))]
        rw [hcl, textTokensConcat_cons_text]
        simp [textTokensConcat]
    · obtain ⟨hcs, ha, -⟩ := findGroup_decomp hg
      have hlt := findGroup_rest_lt hg
      have ihr := ih rest (by omega)
      rw [tokenize_some cs a inner rest hg, stripTags_eq]
      simp only [hg]
      rw [textTokensConcat_append, textTokensConcat_cons_tags, ihr]
      by_cases he : a.isEmpty
      · have : a = [] := by simpa [List.isEmpty_iff] using he
        subst this
        simp [textTokensConcat]
      · rw [if_neg he, classify_text_of_no_open a ha,
          textTokensConcat_cons_text]
        simp [textTokensConcat]

/-- Concatenating the text segments of the token list yields the
`re.sub`-stripped text: the split's unmatched parts are exactly what the
substitution keeps. -/
theorem textConcat_tokenize (cs : Text) :
    textTokensConcat (tokenize cs) = stripTags cs :=
  textConcat_tokenize_bounded cs.length cs le_rfl


theorem kSplit_all_plain_of_not_hasK {tv : Text}
    (h : tokenHasK (Token.tags tv) = false) :
    ∀ p ∈ kSplit tv, ∃ s, p = KPiece.plain s := by
  intro p hp
  rcases p with s | ⟨full, ds⟩
  · exact ⟨s, rfl⟩
  · exfalso
    unfold tokenHasK at h
    rw [List.any_eq_false] at h
    simpa using h _ hp

theorem foldl_procTagPiece_plains (ps : List KPiece)
    (hp : ∀ p ∈ ps, ∃ s, p = KPiece.plain s) (st : KState) :
    (ps.foldl procTagPiece st).current_k_tag = st.current_k_tag ∧
    (ps.foldl procTagPiece st).current_k_duration = st.current_k_duration ∧
    (ps.foldl procTagPiece st).current_text = st.current_text ∧
    (ps.foldl procTagPiece st).out = st.out := by
  induction ps generalizing st with
  | nil => exact ⟨rfl, rfl, rfl, rfl⟩
  | cons p ps ih =>
    obtain ⟨s, hs⟩ := hp p (List.mem_cons_self p ps)
    subst hs
    rw [List.foldl_cons]
    have := ih (fun q hq => hp q (List.mem_cons_of_mem _ hq))
      (procTagPiece st (KPiece.plain s))
    rw [procTagPiece] at this
    exact this

theorem foldl_procToken_noK (tokens : List Token)
    (h : ∀ t ∈ tokens, tokenHasK t = false) :
    ∀ st : KState, st.current_k_tag = none →
      (tokens.foldl procToken st).current_k_tag = none ∧
      (tokens.foldl procToken st).current_k_duration = st.current_k_duration ∧
      (tokens.foldl procToken st).out = st.out ∧
      (tokens.foldl procToken st).current_text =
        st.current_text ++ textTokensConcat tokens := by
  induction tokens with
  | nil =>
    intro st hst
    exact ⟨hst, rfl, rfl, by simp [textTokensConcat]⟩
  | cons t ts ih =>
    intro st hst
    have hts : ∀ t' ∈ ts, tokenHasK t' = false :=
      fun t' ht' => h t' (List.mem_cons_of_mem _ ht')
    have hthead : tokenHasK t = false := h t (List.mem_cons_self t ts)
    rw [List.foldl_cons]
    rcases t with tv | v
    · have hplains := foldl_procTagPiece_plains (kSplit tv)
        (kSplit_all_plain_of_not_hasK hthead) st
      have hstep : procToken st (Token.tags tv) = (kSplit tv).foldl procTagPiece st := rfl
      have hk2 : (procToken st (Token.tags tv)).current_k_tag = none := by
        rw [hstep, hplains.1, hst]
      obtain ⟨h1, h2, h3, h4⟩ := ih hts (procToken st (Token.tags tv)) hk2
      refine ⟨h1, ?_, ?_, ?_⟩
      · rw [h2, hstep, hplains.2.1]
      · rw [h3, hstep, hplains.2.2.2]
      · rw [h4, hstep, hplains.2.2.1, textTokensConcat_cons_tags]
    · have hstep : procToken st (Token.text v) =
          { st with current_text := st.current_text ++ v } := by
        simp only [procToken]
        rw [if_neg (by simp [hst])]
      have hk2 : (procToken st (Token.text v)).current_k_tag = none := by
        rw [hstep]
        exact hst
      obtain ⟨h1, h2, h3, h4⟩ := ih hts (procToken st (Token.text v)) hk2
      refine ⟨h1, ?_, ?_, ?_⟩
      · rw [h2, hstep]
      · rw [h3, hstep]
      · rw [h4, hstep, textTokensConcat_cons_text]
        simp

/-- With no karaoke tag anywhere, the fold flushes exactly one record,
holding the whole stripped text, no karaoke tag and no duration. -/
theorem syllableData_noK (cs : Text) (hk : hasKTags cs = false)
    (hne : stripTags cs ≠ []) :
    ∃ tg, syllableData (tokenize cs) = [⟨tg, none, none, stripTags cs⟩] := by
  have hall : ∀ t ∈ tokenize cs, tokenHasK t = false := by
    unfold hasKTags at hk
    rw [List.any_eq_false] at hk
    intro t ht
    simpa using hk t ht
  obtain ⟨h1, h2, h3, h4⟩ := foldl_procToken_noK (tokenize cs) hall
    ⟨[], none, none, [], []⟩ rfl
  rw [textConcat_tokenize] at h4
  simp only [List.nil_append] at h4
  refine ⟨((tokenize cs).foldl procToken ⟨[], none, none, [], []⟩).current_tags, ?_⟩
  have hnot : (!((tokenize cs).foldl procToken
      ⟨[], none, none, [], []⟩).current_text.isEmpty) = true := by
    rw [h4]
    simpa [List.isEmpty_iff] using hne
  simp only [syllableData]
  rw [h1, hnot]
  simp only [Option.isSome_none, Bool.false_or, if_true]
  rw [h3, h2, h4]
  rfl

/-- The identity-relevant projection of a syllable (everything the layout
passes leave untouched). -/
def sproj (s : TSyl) : Text × Int × Int × Int × Nat × Nat :=
  (s.text, s.duration, s.start_time, s.end_time, s.prespace, s.postspace)

theorem sylsHoriz_map_sproj (align : Int) (g : LineGeom) (sw sp : Rat) :
    ∀ (cx : Rat) (ss : List TSyl),
      (sylsHoriz align g sw sp cx ss).map sproj = ss.map sproj := by
  intro cx ss
  induction ss generalizing cx with
  | nil => rfl
  | cons s ss ih =>
    rw [sylsHoriz]
    simp only [List.map_cons, ih]
    rfl

theorem sylsStackGo_map_sproj (align : Int) (g : LineGeom) (mw : Rat) :
    ∀ (cy : Rat) (ss : List TSyl),
      (sylsStackGo align g mw cy ss).map sproj = ss.map sproj := by
  intro cy ss
  induction ss generalizing cy with
  | nil => rfl
  | cons s ss ih =>
    rw [sylsStackGo]
    simp only [List.map_cons, ih]
    rfl

theorem layoutSyls_map_sproj (align : Int) (vk : Bool) (g : LineGeom)
    (pry : Int) (sw sp : Rat) (ss : List TSyl) :
    (layoutSyls align vk g pry sw sp ss).map sproj = ss.map sproj := by
  unfold layoutSyls sylsStack
  by_cases h : align > 6 ∨ align < 4 ∨ vk = false
  · rw [if_pos h, sylsHoriz_map_sproj]
  · rw [if_neg h, sylsStackGo_map_sproj]

/-- C8 (amended): a line with a resolved style, zero karaoke tags and
NONEMPTY stripped text gets exactly one syllable, with duration 0,
`start_time = end_time = 0`, text the trimmed stripped text and
prespace/postspace its leading/trailing whitespace counts; a line whose
stripped text is empty gets zero syllables instead (see the
counterexample). -/
theorem claim_C8_amended (prx pry : Option Int) (vk : Bool)
    (extents : Text → Rat × Rat) (style : TStyle) (ln : TLineIn)
    (out : TLineOut)
    (hok : extendLine prx pry vk extents style ln = Except.ok out)
    (hk : hasKTags ln.raw_text = false)
    (hne : stripTags ln.raw_text ≠ []) :
    out.syls.map sproj =
      [(stripText (stripTags ln.raw_text), 0, 0, 0,
        prespaceOf (stripTags ln.raw_text),
        postspaceOf (stripTags ln.raw_text))] := by
  obtain ⟨tg, htg⟩ := syllableData_noK ln.raw_text hk hne
  have hbase : (pipeSyls extents ln).map sproj =
      [(stripText (stripTags ln.raw_text), 0, 0, 0,
        prespaceOf (stripTags ln.raw_text),
        postspaceOf (stripTags ln.raw_text))] := by
    unfold pipeSyls
    rw [htg, buildSyls, buildSyls]
    simp [sproj]
  rcases extendLine_cases hok with hout | hout
  · rw [hout,
      show (extendPos (prx.getD 0) (pry.getD 0) vk extents style ln).syls =
        pipeSyls1 (prx.getD 0) (pry.getD 0) vk extents style ln from rfl]
    unfold pipeSyls1
    rw [layoutSyls_map_sproj]
    exact hbase
  · rw [hout]
    exact hbase

/-- A line whose raw text is `  hi  there ` (whitespace, no tags). -/
def lineHi : TLineIn := ⟨0, 1000, 0, 0, 0, " hi there  ".data⟩

/-- Witness for C8 on a concrete karaoke-free line. -/
theorem claim_C8_witness :
    hasKTags lineHi.raw_text = false ∧
    stripTags lineHi.raw_text ≠ [] ∧
    (extendNoPos extC0 styleD lineHi).syls.map sproj =
      [("hi there".data, 0, 0, 0, 1, 2)] := by
  have hok : extendLine (some 0) (some 1080) false extC0 styleD lineHi =
      Except.ok (extendNoPos extC0 styleD lineHi) := rfl
  have H := claim_C8_amended (some 0) (some 1080) false extC0 styleD lineHi
    (extendNoPos extC0 styleD lineHi) hok (by decide) (by decide)
  refine ⟨by decide, by decide, ?_⟩
  rw [H]
  decide

/-- Per-syllable cursor advance `prespace + len(text_stripped) + postspace`
(ass_core.py:898). -/
def sylWeight (d : SylData) : Nat :=
  prespaceOf d.text + (stripText d.text).length + postspaceOf d.text

/-- Default `Syllable` record used by `List.getD` in positional statements. -/
def defTSyl : TSyl :=
  { i := 0, word_i := 0, start_time := 0, end_time := 0, duration := 0,
    text := [], tags := [], inline_fx := [], prespace := 0, postspace := 0,
    width := 0, height := 0 }

/-- Default syllable-data record for `List.getD`. -/
def defSylData : SylData := ⟨[], none, none, []⟩

/-- Every boundary produced from cursor `idx` starts at or after `idx` and
satisfies `start ≤ stop`. -/
theorem wordBoundariesGo_ge :
    ∀ (idx : Nat) (ws : List TWord),
      ∀ bd ∈ wordBoundariesGo idx ws, idx ≤ bd.start ∧ bd.start ≤ bd.stop := by
  intro idx ws
  induction ws generalizing idx with
  | nil => simp [wordBoundariesGo]
  | cons w rest ih =>
    intro bd hbd
    simp only [wordBoundariesGo] at hbd
    rcases List.mem_cons.mp hbd with hbd | hbd
    · subst hbd
      exact ⟨Nat.le_add_right idx w.prespace, Nat.le_add_right _ _⟩
    · have h2 := ih _ bd hbd
      exact ⟨by omega, h2.2⟩

/-- The boundary list is ordered: each range ends at or before the start of
every later range. -/
theorem wordBoundariesGo_pairwise :
    ∀ (idx : Nat) (ws : List TWord),
      List.Pairwise (fun a b => a.stop ≤ b.start) (wordBoundariesGo idx ws) := by
  intro idx ws
  induction ws generalizing idx with
  | nil => simp [wordBoundariesGo]
  | cons w rest ih =>
    simp only [wordBoundariesGo]
    refine List.pairwise_cons.mpr ⟨?_, ih _⟩
    intro b hb
    have h := wordBoundariesGo_ge _ rest b hb
    show idx + w.prespace + w.text.length ≤ b.start
    omega

/-- In an ordered boundary list, at most one range contains a given offset. -/
theorem bounds_unique_of_pairwise :
    ∀ (l : List WordBound), List.Pairwise (fun a b => a.stop ≤ b.start) l →
      ∀ (off : Nat) (b1 b2 : WordBound), b1 ∈ l → b2 ∈ l →
        b1.start ≤ off → off < b1.stop → b2.start ≤ off → off < b2.stop →
        b1 = b2 := by
  intro l
  induction l with
  | nil =>
    intro _ off b1 b2 h1
    simp at h1
  | cons a rest ih =>
    intro hp off b1 b2 h1 h2 s1 e1 s2 e2
    rcases List.pairwise_cons.mp hp with ⟨ha, hrest⟩
    rcases List.mem_cons.mp h1 with he1 | hm1
    · rcases List.mem_cons.mp h2 with he2 | hm2
      · rw [he1, he2]
      · exfalso
        have hst := ha b2 hm2
        rw [he1] at e1
        omega
    · rcases List.mem_cons.mp h2 with he2 | hm2
      · exfalso
        have hst := ha b1 hm1
        rw [he2] at e2
        omega
      · exact ih hrest off b1 b2 hm1 hm2 s1 e1 s2 e2

/-- When no boundary range contains the offset, the scan defaults to 0. -/
theorem findWordI_default (bounds : List WordBound) (off : Nat)
    (h : ∀ bd ∈ bounds, ¬ (bd.start ≤ off ∧ off < bd.stop)) :
    findWordI bounds off = 0 := by
  unfold findWordI
  have hnone : bounds.find?
      (fun bd => decide (bd.start ≤ off) && decide (off < bd.stop)) = none := by
    simp only [List.find?_eq_none, Bool.and_eq_true, decide_eq_true_eq]
    intro bd hbd hc
    exact h bd hbd hc
  rw [hnone]

/-- When a boundary contains the offset, the ascending scan returns that
boundary word index (the containing range is unique by the ordering). -/
theorem findWordI_mem (bounds : List WordBound) (off : Nat)
    (hp : List.Pairwise (fun a b => a.stop ≤ b.start) bounds)
    (bd : WordBound) (hbd : bd ∈ bounds) (h1 : bd.start ≤ off)
    (h2 : off < bd.stop) : findWordI bounds off = bd.wi := by
  unfold findWordI
  rcases hfind : bounds.find?
      (fun b => decide (b.start ≤ off) && decide (off < b.stop)) with - | b
  · exfalso
    have := List.find?_eq_none.mp hfind bd hbd
    simp [h1, h2] at this
  · have hmem := List.mem_of_find?_eq_some hfind
    have hprop := List.find?_some hfind
    simp only [Bool.and_eq_true, decide_eq_true_eq] at hprop
    have hbb : b = bd :=
      bounds_unique_of_pairwise bounds hp off b bd hmem hbd hprop.1 hprop.2 h1 h2
    simp only [hfind]
    rw [hbb]

/-- The syllable builder probes the boundary list at the running cursor —
the initial index plus the summed weights of the prior syllables — plus the
syllable''s own prespace. -/
theorem buildSyls_word_i (extents : Text → Rat × Rat) (bounds : List WordBound) :
    ∀ (ds : List SylData) (si : Nat) (lt : Int) (idx : Nat) (j : Nat),
      j < ds.length →
      ((buildSyls extents bounds ds si lt idx).getD j defTSyl).word_i
        = findWordI bounds
            (idx + (((ds.take j).map sylWeight).sum
              + prespaceOf ((ds.getD j defSylData).text))) := by
  intro ds
  induction ds with
  | nil =>
    intro si lt idx j hj
    simp at hj
  | cons d rest ih =>
    intro si lt idx j hj
    match j with
    | 0 =>
      simp only [buildSyls, List.getD_cons_zero, List.take_zero, List.map_nil,
        List.sum_nil, Nat.zero_add]
    | Nat.succ j' =>
      have hj' : j' < rest.length := by
        simp only [List.length_cons] at hj
        omega
      simp only [buildSyls, List.getD_cons_succ, List.take_succ_cons,
        List.map_cons, List.sum_cons]
      rw [ih _ _ _ j' hj']
      congr 1
      simp only [sylWeight]
      omega

/-- C6: each syllable''s `word_i` is assigned from the running character
cursor — the cumulative `prespace + len(stripped text) + postspace` of the
prior syllables plus the syllable''s own prespace — by an ascending scan of
the words'' half-open offset ranges; the ranges are ordered and pairwise
disjoint, so the containing range (when it exists) is unique and the scan
returns its word index, and an offset contained in no range defaults to
word index 0. -/
theorem claim_C6_word_mapping (extents : Text → Rat × Rat) (ws : List TWord)
    (ds : List SylData) (si : Nat) (lt : Int) :
    List.Pairwise (fun a b => a.stop ≤ b.start) (wordBoundaries ws) ∧
    (∀ (off : Nat) (b1 b2 : WordBound), b1 ∈ wordBoundaries ws →
      b2 ∈ wordBoundaries ws → b1.start ≤ off → off < b1.stop →
      b2.start ≤ off → off < b2.stop → b1 = b2) ∧
    (∀ (off : Nat) (bd : WordBound), bd ∈ wordBoundaries ws →
      bd.start ≤ off → off < bd.stop →
      findWordI (wordBoundaries ws) off = bd.wi) ∧
    (∀ off : Nat, (∀ bd ∈ wordBoundaries ws, ¬ (bd.start ≤ off ∧ off < bd.stop)) →
      findWordI (wordBoundaries ws) off = 0) ∧
    (∀ j : Nat, j < ds.length →
      ((buildSyls extents (wordBoundaries ws) ds si lt 0).getD j defTSyl).word_i
        = findWordI (wordBoundaries ws)
            (((ds.take j).map sylWeight).sum
              + prespaceOf ((ds.getD j defSylData).text))) := by
  refine ⟨wordBoundariesGo_pairwise 0 ws, ?_, ?_, ?_, ?_⟩
  · intro off b1 b2 h1 h2 s1 e1 s2 e2
    exact bounds_unique_of_pairwise _ (wordBoundariesGo_pairwise 0 ws) off
      b1 b2 h1 h2 s1 e1 s2 e2
  · intro off bd hbd h1 h2
    exact findWordI_mem _ off (wordBoundariesGo_pairwise 0 ws) bd hbd h1 h2
  · intro off h
    exact findWordI_default _ off h
  · intro j hj
    have h := buildSyls_word_i extents (wordBoundaries ws) ds si lt 0 j hj
    rw [h, Nat.zero_add]

/-- Two concrete words (as built for ` Hello  world `). -/
def wsC6 : List TWord :=
  [{ i := 0, start_time := 0, end_time := 1000, duration := 1000,
     text := "Hello".data, prespace := 1, postspace := 2,
     width := 0, height := 0 },
   { i := 1, start_time := 0, end_time := 1000, duration := 1000,
     text := "world".data, prespace := 0, postspace := 1,
     width := 0, height := 0 }]

/-- Three concrete syllable records splitting ` Hel` / `lo  wo` / `rld `. -/
def dsC6 : List SylData :=
  [⟨[], some ('\\' :: "k50".data), some "50".data, " Hel".data⟩,
   ⟨[], some ('\\' :: "k50".data), some "50".data, "lo  wo".data⟩,
   ⟨[], some ('\\' :: "k50".data), some "50".data, "rld ".data⟩]

/-- Witness for C6 on concrete words and syllables: the cursor rule fixes
syllable 1''s word index, and an offset outside every range yields 0. -/
theorem claim_C6_witness :
    ((buildSyls extC0 (wordBoundaries wsC6) dsC6 0 0 0).getD 1 defTSyl).word_i
      = findWordI (wordBoundaries wsC6)
          (((dsC6.take 1).map sylWeight).sum
            + prespaceOf ((dsC6.getD 1 defSylData).text)) ∧
    findWordI (wordBoundaries wsC6) 50 = 0 :=
  ⟨(claim_C6_word_mapping extC0 wsC6 dsC6 0 0).2.2.2.2 1 (by decide),
   (claim_C6_word_mapping extC0 wsC6 dsC6 0 0).2.2.2.1 50 (by decide)⟩

end PyonFX
